import Mathlib

/-!
Verification of the employee organisation chart core (`src/index.ts`).

The TypeScript core maintains a tree of employees and an `EmployeeOrgApp`
class with `move`, `undo` and `redo` operations plus two stacks of
snapshots.  The live tree is an object graph that the source mutates in
place; here it is embedded as an inductive value.  `JSON.parse(JSON.stringify(x))`
deep clones are the identity on values, and an in-place mutation of a node
found inside `this.current` becomes a functional update at the position of
the node that the corresponding search (`findEmployee`,
`findEmployeeSupervisor`) returns.  TypeScript array `push`/`pop` act on the
end of the array; the stacks are kept top-first here (`::`/head), which is
the same LIFO discipline.

One caveat, recorded where it matters: when `move` pushes the employee node
onto a subordinate list that is still reachable from the employee node
itself (moving the root, or moving a node under itself or under its own
descendant), the source creates a cycle in the object graph.  A cyclic
graph has no tree value; the value embedding appends the employee's
pre-move snapshot instead, which is the one-step unrolling of that cycle.
For every reachable part of the graph that remains acyclic the embedding
agrees with the source node for node.
-/

/-- The `Employee` interface of `src/index.ts`:
`{ uniqueId: number; name: string; subordinates: Employee[] }`. -/
inductive Employee where
  | mk (uniqueId : Int) (name : String) (subordinates : List Employee)

def Employee.uniqueId : Employee → Int
  | .mk i _ _ => i

def Employee.name : Employee → String
  | .mk _ n _ => n

def Employee.subordinates : Employee → List Employee
  | .mk _ _ s => s

mutual
/-- Structural equality of trees (the value-level counterpart of deep
equality on the JSON shape). -/
def Employee.beq : Employee → Employee → Bool
  | .mk i n subs, .mk j m tubs => i == j && n == m && Employee.beqList subs tubs
/-- `beq` on subordinate lists, element by element. -/
def Employee.beqList : List Employee → List Employee → Bool
  | [], [] => true
  | e :: es, f :: fs => Employee.beq e f && Employee.beqList es fs
  | _, _ => false
end

mutual
theorem Employee.beq_iff : ∀ a b : Employee, Employee.beq a b = true ↔ a = b
  | .mk i n subs, .mk j m tubs => by
    simp [Employee.beq, Employee.beqList_iff subs tubs, and_assoc]
theorem Employee.beqList_iff :
    ∀ a b : List Employee, Employee.beqList a b = true ↔ a = b
  | [], [] => by simp [Employee.beqList]
  | [], _ :: _ => by simp [Employee.beqList]
  | _ :: _, [] => by simp [Employee.beqList]
  | e :: es, f :: fs => by
    simp [Employee.beqList, Employee.beq_iff e f, Employee.beqList_iff es fs]
end

instance : DecidableEq Employee :=
  fun a b => decidable_of_iff _ (Employee.beq_iff a b)

mutual
/-- Pre-order list of all `uniqueId`s of a tree. -/
def Employee.ids : Employee → List Int
  | .mk i _ subs => i :: Employee.idsList subs
/-- `ids` over a subordinate list, left to right. -/
def Employee.idsList : List Employee → List Int
  | [] => []
  | e :: es => e.ids ++ Employee.idsList es
end

mutual
/-- `EmployeeOrgApp.findEmployee` (src/index.ts lines 78-91): pre-order
depth-first search, returns the first node whose `uniqueId` matches. -/
def findEmployee (root : Employee) (id : Int) : Option Employee :=
  match root with
  | .mk i n subs =>
    if i = id then some (.mk i n subs)
    else findEmployeeInList subs id
/-- The `for (const subordinate of root.subordinates)` loop of
`findEmployee`: first hit in the list wins. -/
def findEmployeeInList (l : List Employee) (id : Int) : Option Employee :=
  match l with
  | [] => none
  | e :: es =>
    match findEmployee e id with
    | some found => some found
    | none => findEmployeeInList es id
end

mutual
/-- `EmployeeOrgApp.findEmployeeSupervisor` (src/index.ts lines 93-110):
walks the subordinate list; if a subordinate's id matches, the current
`root` is the supervisor (`return root` in the loop); otherwise it recurses
into that subordinate before looking at the next sibling.  The scan over the
list reports `some none` when the match is a direct child — resolved here to
the owner node — and `some (some e)` when the supervisor was found deeper. -/
def findEmployeeSupervisor (root : Employee) (id : Int) : Option Employee :=
  match root with
  | .mk i n subs =>
    match findSupervisorScan subs id with
    | some (some found) => some found
    | some none => some (.mk i n subs)
    | none => none
/-- The loop of `findEmployeeSupervisor` over a subordinate list. -/
def findSupervisorScan (l : List Employee) (id : Int) : Option (Option Employee) :=
  match l with
  | [] => none
  | s :: ss =>
    if s.uniqueId = id then some none
    else
      match findEmployeeSupervisor s id with
      | some found => some (some found)
      | none => findSupervisorScan ss id
end

mutual
/-- The removal step of `move` (src/index.ts lines 41-49): locate the first
supervisor of `id` in the traversal order of `findEmployeeSupervisor` and
replace that node's subordinate list by
`subordinates.filter(sub => sub.uniqueId !== employeeID)`.
Returns the updated tree and whether a supervisor was found; when none is
found the tree is returned unchanged (the source's `if (currentSupervisor)`
guard). -/
def removeEmployee (root : Employee) (id : Int) : Employee × Bool :=
  match root with
  | .mk i n subs =>
    match removeEmployeeList subs id with
    | (subs2, true) => (.mk i n subs2, true)
    | (_, false) => (.mk i n subs, false)
/-- Removal over a subordinate list.  If the head's id matches, the owner of
this list is the supervisor, so the whole remaining list is filtered (all
earlier siblings already failed the id test, so filtering the tail suffix
equals filtering the owner's full list).  Otherwise the head subtree is
searched before the later siblings, exactly as in
`findEmployeeSupervisor`. -/
def removeEmployeeList (l : List Employee) (id : Int) : List Employee × Bool :=
  match l with
  | [] => ([], false)
  | s :: ss =>
    if s.uniqueId = id then
      ((s :: ss).filter (fun x => x.uniqueId != id), true)
    else
      match removeEmployee s id with
      | (s2, true) => (s2 :: ss, true)
      | (_, false) =>
        match removeEmployeeList ss id with
        | (ss2, true) => (s :: ss2, true)
        | (_, false) => (s :: ss, false)
end

mutual
/-- The insertion step of `move` (src/index.ts line 52):
`supervisor.subordinates.push(employee)` on the node that `findEmployee`
located.  Functionally: append `emp` to the subordinate list of the first
node (in `findEmployee` order) whose id is `id`; when no such node remains
reachable the live tree is unchanged (the pushed-onto node was detached by
the removal step). -/
def appendEmployee (root : Employee) (id : Int) (emp : Employee) :
    Employee × Bool :=
  match root with
  | .mk i n subs =>
    if i = id then (.mk i n (subs ++ [emp]), true)
    else
      match appendEmployeeList subs id emp with
      | (subs2, true) => (.mk i n subs2, true)
      | (_, false) => (.mk i n subs, false)
/-- Insertion over a subordinate list, first hit in `findEmployee` order. -/
def appendEmployeeList (l : List Employee) (id : Int) (emp : Employee) :
    List Employee × Bool :=
  match l with
  | [] => ([], false)
  | s :: ss =>
    match appendEmployee s id emp with
    | (s2, true) => (s2 :: ss, true)
    | (_, false) =>
      match appendEmployeeList ss id emp with
      | (ss2, true) => (s :: ss2, true)
      | (_, false) => (s :: ss, false)
end

/-- A record of the `history` stack: `{ move: string; undoData: Employee[] }`
(also the shape of the `redoStack` records, whose payload field is named
`redoData` in the source). -/
structure HistoryEntry where
  tag : String
  undoData : List Employee
deriving DecidableEq

/-- The fields of `EmployeeOrgApp` (src/index.ts lines 16-27): the `ceo`
reference kept as supplied, the private deep-cloned working copy `current`,
and the two stacks.  Stacks are top-first lists. -/
structure AppState where
  ceo : Employee
  history : List HistoryEntry
  current : Employee
  redoStack : List HistoryEntry
deriving DecidableEq

/-- The constructor (src/index.ts lines 22-27): stores the supplied root in
`ceo` and a deep clone of it in `current`; both stacks start empty. -/
def AppState.init (ceo : Employee) : AppState :=
  { ceo := ceo, history := [], current := ceo, redoStack := [] }

/-- `EmployeeOrgApp.createUndoData` (src/index.ts lines 112-139): a full
clone of the live tree first, then (when the employee has a current
supervisor) a clone of that supervisor, then clones of the employee and of
the target supervisor. -/
def createUndoData (s : AppState) (employee supervisor : Employee) :
    List Employee :=
  match findEmployeeSupervisor s.current employee.uniqueId with
  | some currentSupervisor => [s.current, currentSupervisor, employee, supervisor]
  | none => [s.current, employee, supervisor]

/-- The guarded removal of `move` (src/index.ts lines 41-49): look up the
employee's current supervisor; when one exists, apply the filter, otherwise
leave the live tree alone. -/
def removeStep (t : Employee) (employeeID : Int) : Employee :=
  match findEmployeeSupervisor t employeeID with
  | some _ => (removeEmployee t employeeID).1
  | none => t

/-- `EmployeeOrgApp.move` (src/index.ts lines 29-53).  Both ids are resolved
on the live tree; if either is missing the error is thrown before any state
is touched.  Otherwise the undo record is pushed, the employee is removed
from its current supervisor's subordinates (if it has one), and the
pre-move employee node is appended to the target supervisor's
subordinates. -/
def AppState.move (s : AppState) (employeeID supervisorID : Int) :
    Except String AppState :=
  match findEmployee s.current employeeID, findEmployee s.current supervisorID with
  | some employee, some supervisor =>
    let undoData := createUndoData s employee supervisor
    let history2 := { tag := "move", undoData := undoData } :: s.history
    let afterRemove := removeStep s.current employeeID
    let afterAppend := (appendEmployee afterRemove supervisorID employee).1
    Except.ok { s with history := history2, current := afterAppend }
  | _, _ => Except.error "Employee or Supervisor not found"

/-- `EmployeeOrgApp.undo` (src/index.ts lines 55-62): no-op on an empty
history; otherwise pop, and when the record is tagged `"move"` replace the
live tree by `undoData[0]`.  Every record the source ever pushes carries a
non-empty `undoData`, so the `none` branch is unreachable from `init`. -/
def AppState.undo (s : AppState) : AppState :=
  match s.history with
  | [] => s
  | lastAction :: rest =>
    if lastAction.tag = "move" then
      match lastAction.undoData.head? with
      | some t => { s with history := rest, current := t }
      | none => { s with history := rest }
    else { s with history := rest }

/-- `EmployeeOrgApp.redo` (src/index.ts lines 68-76): no-op on an empty redo
stack; otherwise pop, push an equivalent record onto the history and replace
the live tree by `redoData[1]`.  Nothing ever pushes onto the redo stack, so
only the first branch is ever taken from `init`. -/
def AppState.redo (s : AppState) : AppState :=
  match s.redoStack with
  | [] => s
  | lastRedoAction :: rest =>
    if lastRedoAction.tag = "move" then
      let entry : HistoryEntry := { tag := "move", undoData := lastRedoAction.undoData }
      let s2 := { s with redoStack := rest, history := entry :: s.history }
      match lastRedoAction.undoData.get? 1 with
      | some t => { s2 with current := t }
      | none => s2
    else { s with redoStack := rest }

/-- One external call into the core: the three operations the HTTP layer can
invoke. -/
inductive Op where
  | move (employeeID supervisorID : Int)
  | undo
  | redo
deriving DecidableEq

/-- One call, as observed on the app state: a `move` whose error is thrown
(and caught by the transport layer) leaves the state exactly as it was,
since the throw happens before any mutation. -/
def AppState.step (s : AppState) (op : Op) : AppState :=
  match op with
  | .move e sv =>
    match s.move e sv with
    | .ok s2 => s2
    | .error _ => s
  | .undo => s.undo
  | .redo => s.redo

/-- Running a finite sequence of calls. -/
def AppState.run (s : AppState) (ops : List Op) : AppState :=
  ops.foldl AppState.step s

mutual
/-- Pre-order list of all nodes of a tree (the node itself first, then the
subordinate subtrees left to right).  This is the traversal order of
`findEmployee`. -/
def Employee.nodes : Employee → List Employee
  | .mk i n subs => .mk i n subs :: Employee.nodesList subs
/-- `nodes` over a subordinate list, left to right. -/
def Employee.nodesList : List Employee → List Employee
  | [] => []
  | e :: es => e.nodes ++ Employee.nodesList es
end

/-- The ids of a node's immediate subordinates. -/
def Employee.childIds (e : Employee) : List Int :=
  e.subordinates.map Employee.uniqueId

/-- The immediate-subordinate ids of the node that resolves for `id`, if
any: the observable "subordinates sequence" of a node named by id. -/
def subsIds (t : Employee) (id : Int) : Option (List Int) :=
  (findEmployee t id).map Employee.childIds

mutual
/-- Semantic view of the removal step: filter every node's subordinate list
by `uniqueId ≠ e` and drop every subtree whose root id is `e`.  On trees
with pairwise distinct ids this coincides with the source's
first-supervisor-only mutation (`removeStep`), proved below. -/
def filterAll : Employee → Int → Employee
  | .mk i n subs, e => .mk i n (filterAllList subs e)
/-- `filterAll` over a subordinate list. -/
def filterAllList : List Employee → Int → List Employee
  | [], _ => []
  | s :: ss, e =>
    if s.uniqueId = e then filterAllList ss e
    else filterAll s e :: filterAllList ss e
end

mutual
/-- Semantic view of the insertion step: append `emp` at the end of the
subordinate list of every node whose id is `sv`.  On trees with pairwise
distinct ids this coincides with the source's first-match-only mutation
(`appendEmployee`), proved below. -/
def appendAll : Employee → Int → Employee → Employee
  | .mk i n subs, sv, emp =>
    if i = sv then .mk i n (appendAllList subs sv emp ++ [emp])
    else .mk i n (appendAllList subs sv emp)
/-- `appendAll` over a subordinate list. -/
def appendAllList : List Employee → Int → Employee → List Employee
  | [], _, _ => []
  | s :: ss, sv, emp => appendAll s sv emp :: appendAllList ss sv emp
end

/-- The spec's description of `findSupervisor` (spec section 4.1), stated in
the spec's own words: a pre-order depth-first search for the (first) node
whose immediate `subordinates` sequence contains the id. -/
def supervisorBySpec (t : Employee) (id : Int) : Option Employee :=
  t.nodes.find? (fun nd => nd.subordinates.any (fun c => c.uniqueId == id))

@[simp] theorem Employee.uniqueId_mk (i : Int) (n : String) (subs : List Employee) :
    (Employee.mk i n subs).uniqueId = i := rfl

@[simp] theorem Employee.name_mk (i : Int) (n : String) (subs : List Employee) :
    (Employee.mk i n subs).name = n := rfl

@[simp] theorem Employee.subordinates_mk (i : Int) (n : String) (subs : List Employee) :
    (Employee.mk i n subs).subordinates = subs := rfl

@[simp] theorem Employee.ids_mk (i : Int) (n : String) (subs : List Employee) :
    (Employee.mk i n subs).ids = i :: Employee.idsList subs := rfl

@[simp] theorem Employee.idsList_nil : Employee.idsList [] = [] := rfl

@[simp] theorem Employee.idsList_cons (e : Employee) (es : List Employee) :
    Employee.idsList (e :: es) = e.ids ++ Employee.idsList es := rfl

@[simp] theorem Employee.nodes_mk (i : Int) (n : String) (subs : List Employee) :
    (Employee.mk i n subs).nodes = Employee.mk i n subs :: Employee.nodesList subs := rfl

@[simp] theorem Employee.nodesList_nil : Employee.nodesList [] = [] := rfl

@[simp] theorem Employee.nodesList_cons (e : Employee) (es : List Employee) :
    Employee.nodesList (e :: es) = e.nodes ++ Employee.nodesList es := rfl

theorem findEmployee_mk (i : Int) (n : String) (subs : List Employee) (x : Int) :
    findEmployee (.mk i n subs) x =
      if i = x then some (.mk i n subs) else findEmployeeInList subs x := rfl

@[simp] theorem findEmployeeInList_nil (x : Int) : findEmployeeInList [] x = none := rfl

theorem findEmployeeInList_cons_some {e : Employee} {x : Int} {f : Employee}
    (es : List Employee) (h : findEmployee e x = some f) :
    findEmployeeInList (e :: es) x = some f := by
  simp [findEmployeeInList, h]

theorem findEmployeeInList_cons_none {e : Employee} {x : Int}
    (es : List Employee) (h : findEmployee e x = none) :
    findEmployeeInList (e :: es) x = findEmployeeInList es x := by
  simp [findEmployeeInList, h]

theorem Employee.self_mem_nodes (t : Employee) : t ∈ t.nodes := by
  cases t with
  | mk i n subs => simp

theorem Employee.mem_nodesList_of_mem {l : List Employee} {e : Employee}
    (h : e ∈ l) : e ∈ Employee.nodesList l := by
  induction l with
  | nil => simp at h
  | cons s ss ih =>
    rw [List.mem_cons] at h
    rcases h with rfl | h
    · simp [Employee.self_mem_nodes]
    · simp [ih h]

mutual
theorem Employee.ids_eq_nodes_map :
    ∀ t : Employee, t.ids = t.nodes.map Employee.uniqueId
  | .mk i n subs => by
    simp [Employee.idsList_eq_nodesList_map subs]
theorem Employee.idsList_eq_nodesList_map :
    ∀ l : List Employee, Employee.idsList l = (Employee.nodesList l).map Employee.uniqueId
  | [] => by simp
  | e :: es => by
    simp [Employee.ids_eq_nodes_map e, Employee.idsList_eq_nodesList_map es]
end

mutual
theorem findEmployee_isSome_iff :
    ∀ (t : Employee) (x : Int), (findEmployee t x).isSome ↔ x ∈ t.ids
  | .mk i n subs, x => by
    by_cases h : i = x
    · subst h; simp [findEmployee_mk]
    · simp [findEmployee_mk, h, findEmployeeInList_isSome_iff subs x, Ne.symm h]
theorem findEmployeeInList_isSome_iff :
    ∀ (l : List Employee) (x : Int),
      (findEmployeeInList l x).isSome ↔ x ∈ Employee.idsList l
  | [], x => by simp
  | e :: es, x => by
    cases h : findEmployee e x with
    | some f =>
      have he : x ∈ e.ids := (findEmployee_isSome_iff e x).1 (by simp [h])
      simp [findEmployeeInList_cons_some es h, he]
    | none =>
      have he : x ∉ e.ids := fun hx => by
        have := (findEmployee_isSome_iff e x).2 hx
        simp [h] at this
      simp [findEmployeeInList_cons_none es h, findEmployeeInList_isSome_iff es x, he]
end

theorem findEmployee_eq_none_iff {t : Employee} {x : Int} :
    findEmployee t x = none ↔ x ∉ t.ids := by
  rw [← findEmployee_isSome_iff, Option.not_isSome_iff_eq_none]

theorem findEmployee_isSome_of_mem {t : Employee} {x : Int} (h : x ∈ t.ids) :
    ∃ e, findEmployee t x = some e := by
  have := (findEmployee_isSome_iff t x).2 h
  exact Option.isSome_iff_exists.1 this

mutual
theorem findEmployee_some_spec :
    ∀ (t : Employee) (x : Int) (e : Employee), findEmployee t x = some e →
      e.uniqueId = x ∧ e ∈ t.nodes
  | .mk i n subs, x, e, h => by
    rw [findEmployee_mk] at h
    by_cases hix : i = x
    · subst hix
      simp at h
      subst h
      exact ⟨by simp, Employee.self_mem_nodes _⟩
    · simp [hix] at h
      obtain ⟨hid, hmem⟩ := findEmployeeInList_some_spec subs x e h
      exact ⟨hid, by simp [hmem]⟩
theorem findEmployeeInList_some_spec :
    ∀ (l : List Employee) (x : Int) (e : Employee), findEmployeeInList l x = some e →
      e.uniqueId = x ∧ e ∈ Employee.nodesList l
  | [], x, e, h => by simp at h
  | s :: ss, x, e, h => by
    cases hs : findEmployee s x with
    | some f =>
      rw [findEmployeeInList_cons_some ss hs] at h
      obtain ⟨hid, hmem⟩ := findEmployee_some_spec s x f hs
      cases h
      exact ⟨hid, by simp [hmem]⟩
    | none =>
      rw [findEmployeeInList_cons_none ss hs] at h
      obtain ⟨hid, hmem⟩ := findEmployeeInList_some_spec ss x e h
      exact ⟨hid, by simp [hmem]⟩
end

/-- The concrete chart of spec section 8: CEO(1) with children A(2), B(3). -/
def exTree : Employee := .mk 1 "John Smith" [.mk 2 "A" [], .mk 3 "B" []]

/-- A three-level chain 1 → 2 → 3. -/
def chainTree : Employee := .mk 1 "c" [.mk 2 "a" [.mk 3 "b" []]]

theorem move_ok_inv {s s2 : AppState} {e sv : Int}
    (h : s.move e sv = Except.ok s2) :
    s2.ceo = s.ceo ∧ s2.redoStack = s.redoStack ∧
    s2.current = (appendEmployee (removeStep s.current e) sv
      ((findEmployee s.current e).getD s.current)).1 := by
  unfold AppState.move at h
  cases hfe : findEmployee s.current e with
  | none => rw [hfe] at h; simp at h
  | some emp =>
    cases hfs : findEmployee s.current sv with
    | none => rw [hfe, hfs] at h; simp at h
    | some sup =>
      rw [hfe, hfs] at h
      simp only [Except.ok.injEq] at h
      subst h
      simp [hfe]

theorem undo_frame (s : AppState) :
    s.undo.ceo = s.ceo ∧ s.undo.redoStack = s.redoStack := by
  rcases hh : s.history with _ | ⟨a, rest⟩
  · simp [AppState.undo, hh]
  · by_cases ht : a.tag = "move"
    · cases hd : a.undoData.head? <;> simp [AppState.undo, hh, ht, hd]
    · simp [AppState.undo, hh, ht]

theorem redo_empty_eq (s : AppState) (h : s.redoStack = []) : s.redo = s := by
  simp [AppState.redo, h]

theorem redo_ceo (s : AppState) : s.redo.ceo = s.ceo := by
  rcases hh : s.redoStack with _ | ⟨a, rest⟩
  · simp [AppState.redo, hh]
  · by_cases ht : a.tag = "move"
    · cases hd : a.undoData[1]? <;> simp [AppState.redo, hh, ht, hd]
    · simp [AppState.redo, hh, ht]

theorem step_ceo (s : AppState) (op : Op) : (s.step op).ceo = s.ceo := by
  cases op with
  | move e sv =>
    cases hm : s.move e sv with
    | ok s2 => simpa [AppState.step, hm] using (move_ok_inv hm).1
    | error msg => simp [AppState.step, hm]
  | undo => simpa [AppState.step] using (undo_frame s).1
  | redo => simpa [AppState.step] using redo_ceo s

theorem step_redoStack_empty (s : AppState) (op : Op) (h : s.redoStack = []) :
    (s.step op).redoStack = [] := by
  cases op with
  | move e sv =>
    cases hm : s.move e sv with
    | ok s2 => simpa [AppState.step, hm, h] using (move_ok_inv hm).2.1.trans h
    | error msg => simp [AppState.step, hm, h]
  | undo => simpa [AppState.step, h] using (undo_frame s).2.trans h
  | redo => simp [AppState.step, redo_empty_eq s h, h]

theorem run_cons (s : AppState) (op : Op) (ops : List Op) :
    s.run (op :: ops) = (s.step op).run ops := rfl

theorem run_redoStack_empty_aux (ops : List Op) :
    ∀ s : AppState, s.redoStack = [] → (s.run ops).redoStack = [] := by
  induction ops with
  | nil => intro s h; exact h
  | cons op rest ih =>
    intro s h
    rw [run_cons]
    exact ih _ (step_redoStack_empty s op h)

theorem run_ceo_aux (ops : List Op) :
    ∀ s : AppState, (s.run ops).ceo = s.ceo := by
  induction ops with
  | nil => intro s; rfl
  | cons op rest ih =>
    intro s
    rw [run_cons, ih, step_ceo]

/-- C1: when either identifier fails to resolve via `findEmployee` on the
live tree, `move` raises the "Employee or Supervisor not found" error
(EntityNotFound) and the whole app state — live tree, undo stack and redo
stack — is exactly as before the call. -/
theorem C1_move_notFound (s : AppState) (employeeID supervisorID : Int)
    (h : findEmployee s.current employeeID = none ∨
         findEmployee s.current supervisorID = none) :
    s.move employeeID supervisorID = Except.error "Employee or Supervisor not found" ∧
    s.step (Op.move employeeID supervisorID) = s := by
  have herr : s.move employeeID supervisorID =
      Except.error "Employee or Supervisor not found" := by
    rcases h with h | h
    · simp [AppState.move, h]
    · cases hfe : findEmployee s.current employeeID <;> simp [AppState.move, h, hfe]
  exact ⟨herr, by simp [AppState.step, herr]⟩

/-- C1 witness: on the concrete chart, `move(9, 1)` with unresolvable 9. -/
theorem C1_witness :
    (findEmployee (AppState.init exTree).current 9 = none ∨
     findEmployee (AppState.init exTree).current 1 = none) ∧
    ((AppState.init exTree).move 9 1 = Except.error "Employee or Supervisor not found" ∧
     (AppState.init exTree).step (Op.move 9 1) = AppState.init exTree) :=
  ⟨Or.inl (by decide), C1_move_notFound _ 9 1 (Or.inl (by decide))⟩

/-- C2: whenever `move` succeeds, an immediate `undo` restores the complete
prior state — in particular the live tree is deep-equal to the pre-move
tree — because the popped record's first snapshot is the whole-tree clone
taken before the mutation. -/
theorem C2_undo_restores (s s2 : AppState) (e sv : Int)
    (h : s.move e sv = Except.ok s2) : s2.undo = s := by
  unfold AppState.move at h
  cases hfe : findEmployee s.current e with
  | none => rw [hfe] at h; simp at h
  | some emp =>
    cases hfs : findEmployee s.current sv with
    | none => rw [hfe, hfs] at h; simp at h
    | some sup =>
      rw [hfe, hfs] at h
      simp only [Except.ok.injEq] at h
      subst h
      cases hcs : findEmployeeSupervisor s.current emp.uniqueId <;>
        simp [AppState.undo, createUndoData, hcs]

/-- C2 witness: the concrete scenario `move(2,3)` then `undo`. -/
theorem C2_witness :
    (AppState.init exTree).move 2 3 = Except.ok ((AppState.init exTree).step (Op.move 2 3)) ∧
    ((AppState.init exTree).step (Op.move 2 3)).undo = AppState.init exTree :=
  ⟨by rfl, C2_undo_restores _ _ 2 3 (by rfl)⟩

/-- C4: in every state reachable from construction by `move`/`undo`/`redo`
calls the redo stack is empty, and consequently `redo()` leaves the state
(live tree, undo stack, redo stack) unchanged: the redo path is dead. -/
theorem C4_redo_noop (t : Employee) (ops : List Op) :
    ((AppState.init t).run ops).redoStack = [] ∧
    ((AppState.init t).run ops).redo = (AppState.init t).run ops := by
  have h := run_redoStack_empty_aux ops (AppState.init t) rfl
  exact ⟨h, redo_empty_eq _ h⟩

/-- C9: the tree supplied to the constructor and kept in the `ceo` field is
never mutated by any sequence of operations: the live working copy is a
separate deep clone, and no operation writes to `ceo`. -/
theorem C9_original_never_mutated (t : Employee) (ops : List Op) :
    ((AppState.init t).run ops).ceo = t :=
  run_ceo_aux ops (AppState.init t)

/-- C5 counterexample: after the successful `move(2,3)` on the concrete
chart, the readable `ceo` field is not the root of the current live tree —
`ceo` still shows the original shape while the live tree holds employee 2
under 3. -/
theorem C5_counterexample :
    ((AppState.init exTree).run [Op.move 2 3]).ceo ≠
      ((AppState.init exTree).run [Op.move 2 3]).current := by decide

/-- C5 (amended): the `ceo` field equals the construction-time tree, not the
live tree: a successful `move` mutates only the private working copy and
leaves `ceo` untouched, so reading `ceo` afterwards observes the employee
still in its original position. -/
theorem C5_ceo_unchanged_by_move (s s2 : AppState) (e sv : Int)
    (h : s.move e sv = Except.ok s2) : s2.ceo = s.ceo :=
  (move_ok_inv h).1

/-- C5 witness: the concrete `move(2,3)`. -/
theorem C5_witness :
    (AppState.init exTree).move 2 3 = Except.ok ((AppState.init exTree).step (Op.move 2 3)) ∧
    ((AppState.init exTree).step (Op.move 2 3)).ceo = (AppState.init exTree).ceo :=
  ⟨by rfl, C5_ceo_unchanged_by_move _ _ 2 3 (by rfl)⟩

/-- C7: a chart on which `move` reparents an employee under its own strict
descendant: the call succeeds and afterwards the employee's whole subtree —
the new supervisor included — is unreachable from the root (in the source's
object graph this call splices the detached subtree into itself, a cycle). -/
theorem C7_cycle_corrupts :
    ∃ (t : Employee) (e sv : Int) (emp : Employee) (s2 : AppState),
      t.ids.Nodup ∧
      findEmployee t e = some emp ∧
      (findEmployee t sv).isSome ∧
      sv ∈ emp.ids ∧ sv ≠ e ∧
      (AppState.init t).move e sv = Except.ok s2 ∧
      (∀ x ∈ emp.ids, x ∉ s2.current.ids) := by
  refine ⟨chainTree, 2, 3, .mk 2 "a" [.mk 3 "b" []],
    (AppState.init chainTree).step (Op.move 2 3),
    by decide, by decide, by decide, by decide, by decide, by rfl, by decide⟩

/-- C6 counterexample: on the two-node chart 1[2] with unique ids,
`move(1, 2)` meets the stated preconditions (both ids resolve), yet in the
resulting live tree id 1 occurs twice, not exactly once.  (In the source's
object graph this very call pushes the root onto its own child's
subordinates, creating a cycle, so no id occurs exactly once there either.) -/
theorem C6_counterexample :
    (Employee.mk 1 "c" [Employee.mk 2 "a" []]).ids.Nodup ∧
    (findEmployee (Employee.mk 1 "c" [Employee.mk 2 "a" []]) 1).isSome ∧
    (findEmployee (Employee.mk 1 "c" [Employee.mk 2 "a" []]) 2).isSome ∧
    ((AppState.init (Employee.mk 1 "c" [Employee.mk 2 "a" []])).run
        [Op.move 1 2]).current.ids.count 1 = 2 := by decide

theorem Employee.uniqueId_mem_ids (S : Employee) : S.uniqueId ∈ S.ids := by
  cases S with | mk i n subs => simp

theorem findEmployeeSupervisor_mk (i : Int) (n : String) (subs : List Employee) (x : Int) :
    findEmployeeSupervisor (.mk i n subs) x =
      match findSupervisorScan subs x with
      | some (some found) => some found
      | some none => some (.mk i n subs)
      | none => none := rfl

@[simp] theorem findSupervisorScan_nil (x : Int) : findSupervisorScan [] x = none := rfl

theorem findSupervisorScan_cons (s : Employee) (ss : List Employee) (x : Int) :
    findSupervisorScan (s :: ss) x =
      if s.uniqueId = x then some none
      else
        match findEmployeeSupervisor s x with
        | some found => some (some found)
        | none => findSupervisorScan ss x := rfl

theorem sizeOf_lt_of_mem_subordinates {c : Employee} {i : Int} {n : String}
    {subs : List Employee} (h : c ∈ subs) :
    sizeOf c < sizeOf (Employee.mk i n subs) := by
  have h2 := List.sizeOf_lt_of_mem h
  simp only [Employee.mk.sizeOf_spec]
  omega

mutual
theorem sizeOf_le_of_mem_nodes : ∀ (t S : Employee), S ∈ t.nodes → sizeOf S ≤ sizeOf t
  | .mk i n subs, S, h => by
    rcases List.mem_cons.1 (by simpa using h) with rfl | h
    · exact le_refl _
    · have := sizeOf_le_of_mem_nodesList subs S h
      simp only [Employee.mk.sizeOf_spec]
      omega
theorem sizeOf_le_of_mem_nodesList :
    ∀ (l : List Employee) (S : Employee), S ∈ Employee.nodesList l → sizeOf S ≤ sizeOf l
  | [], S, h => by simp at h
  | s :: ss, S, h => by
    rcases List.mem_append.1 (by simpa using h) with h | h
    · have := sizeOf_le_of_mem_nodes s S h
      simp only [List.cons.sizeOf_spec]
      omega
    · have := sizeOf_le_of_mem_nodesList ss S h
      simp only [List.cons.sizeOf_spec]
      omega
end

mutual
theorem mem_nodes_of_child : ∀ (t S c : Employee), S ∈ t.nodes → c ∈ S.subordinates →
    c ∈ t.nodes
  | .mk i n subs, S, c, hS, hc => by
    rcases List.mem_cons.1 (by simpa using hS) with rfl | hS
    · simp only [Employee.subordinates_mk] at hc
      simp [Employee.mem_nodesList_of_mem hc]
    · simp [mem_nodesList_of_child subs S c hS hc]
theorem mem_nodesList_of_child : ∀ (l : List Employee) (S c : Employee),
    S ∈ Employee.nodesList l → c ∈ S.subordinates → c ∈ Employee.nodesList l
  | [], S, c, hS, _ => by simp at hS
  | s :: ss, S, c, hS, hc => by
    rcases List.mem_append.1 (by simpa using hS) with h | h
    · simp [mem_nodes_of_child s S c h hc]
    · simp [mem_nodesList_of_child ss S c h hc]
end

mutual
theorem ids_sublist_of_mem_nodes : ∀ (t S : Employee), S ∈ t.nodes → S.ids.Sublist t.ids
  | .mk i n subs, S, h => by
    rcases List.mem_cons.1 (by simpa using h) with rfl | h
    · exact List.Sublist.refl _
    · simpa using List.Sublist.cons i (ids_sublist_of_mem_nodesList subs S h)
theorem ids_sublist_of_mem_nodesList : ∀ (l : List Employee) (S : Employee),
    S ∈ Employee.nodesList l → S.ids.Sublist (Employee.idsList l)
  | [], S, h => by simp at h
  | s :: ss, S, h => by
    rcases List.mem_append.1 (by simpa using h) with h | h
    · refine (ids_sublist_of_mem_nodes s S h).trans ?_
      rw [Employee.idsList_cons]
      exact List.sublist_append_left s.ids (Employee.idsList ss)
    · refine (ids_sublist_of_mem_nodesList ss S h).trans ?_
      rw [Employee.idsList_cons]
      exact List.sublist_append_right s.ids (Employee.idsList ss)
end

theorem nodup_of_mem_nodes {t S : Employee} (hnd : t.ids.Nodup) (h : S ∈ t.nodes) :
    S.ids.Nodup :=
  (ids_sublist_of_mem_nodes t S h).nodup hnd

theorem uniqueId_mem_of_mem_nodes {t S : Employee} (h : S ∈ t.nodes) :
    S.uniqueId ∈ t.ids :=
  (ids_sublist_of_mem_nodes t S h).subset (Employee.uniqueId_mem_ids S)

mutual
theorem find_of_mem_nodes : ∀ (t S : Employee), t.ids.Nodup → S ∈ t.nodes →
    findEmployee t S.uniqueId = some S
  | .mk i n subs, S, hnd, h => by
    rcases List.mem_cons.1 (by simpa using h) with rfl | h
    · simp [findEmployee_mk]
    · have hid : S.uniqueId ∈ Employee.idsList subs :=
        (ids_sublist_of_mem_nodesList subs S h).subset (Employee.uniqueId_mem_ids S)
      have hni : i ∉ Employee.idsList subs := by
        have := hnd
        simp only [Employee.ids_mk, List.nodup_cons] at this
        exact this.1
      have hne : i ≠ S.uniqueId := fun he => hni (he ▸ hid)
      rw [findEmployee_mk, if_neg hne]
      have hndl : (Employee.idsList subs).Nodup := by
        have := hnd
        simp only [Employee.ids_mk, List.nodup_cons] at this
        exact this.2
      exact find_list_of_mem_nodes subs S hndl h
theorem find_list_of_mem_nodes : ∀ (l : List Employee) (S : Employee),
    (Employee.idsList l).Nodup → S ∈ Employee.nodesList l →
    findEmployeeInList l S.uniqueId = some S
  | [], S, _, h => by simp at h
  | s :: ss, S, hnd, h => by
    rw [Employee.idsList_cons, List.nodup_append] at hnd
    rcases List.mem_append.1 (by simpa using h) with h | h
    · exact findEmployeeInList_cons_some ss (find_of_mem_nodes s S hnd.1 h)
    · have hid : S.uniqueId ∈ Employee.idsList ss :=
        (ids_sublist_of_mem_nodesList ss S h).subset (Employee.uniqueId_mem_ids S)
      have hnot : S.uniqueId ∉ s.ids := fun hx => hnd.2.2 hx hid
      rw [findEmployeeInList_cons_none ss (findEmployee_eq_none_iff.2 hnot)]
      exact find_list_of_mem_nodes ss S hnd.2.1 h
end

mutual
theorem findEmployeeSupervisor_some_spec : ∀ (t : Employee) (x : Int) (S : Employee),
    findEmployeeSupervisor t x = some S →
    S ∈ t.nodes ∧ ∃ c ∈ S.subordinates, c.uniqueId = x
  | .mk i n subs, x, S, h => by
    rw [findEmployeeSupervisor_mk] at h
    cases hs : findSupervisorScan subs x with
    | none => rw [hs] at h; simp at h
    | some r =>
      cases r with
      | none =>
        rw [hs] at h
        simp only [Option.some.injEq] at h
        subst h
        obtain ⟨s, hsmem, hsid⟩ := findSupervisorScan_direct subs x hs
        exact ⟨Employee.self_mem_nodes _, s, by simpa using hsmem, hsid⟩
      | some F =>
        rw [hs] at h
        simp only [Option.some.injEq] at h
        obtain ⟨hmem, c, hc, hcid⟩ := findSupervisorScan_deep subs x F hs
        subst h
        exact ⟨by simp [hmem], c, hc, hcid⟩
theorem findSupervisorScan_direct : ∀ (l : List Employee) (x : Int),
    findSupervisorScan l x = some none → ∃ s ∈ l, s.uniqueId = x
  | [], x, h => by simp at h
  | s :: ss, x, h => by
    rw [findSupervisorScan_cons] at h
    by_cases hid : s.uniqueId = x
    · exact ⟨s, List.mem_cons_self s ss, hid⟩
    · rw [if_neg hid] at h
      cases hsup : findEmployeeSupervisor s x with
      | some F => rw [hsup] at h; simp at h
      | none =>
        rw [hsup] at h
        obtain ⟨s2, hmem, hid2⟩ := findSupervisorScan_direct ss x h
        exact ⟨s2, List.mem_cons_of_mem s hmem, hid2⟩
theorem findSupervisorScan_deep : ∀ (l : List Employee) (x : Int) (F : Employee),
    findSupervisorScan l x = some (some F) →
    F ∈ Employee.nodesList l ∧ ∃ c ∈ F.subordinates, c.uniqueId = x
  | [], x, F, h => by simp at h
  | s :: ss, x, F, h => by
    rw [findSupervisorScan_cons] at h
    by_cases hid : s.uniqueId = x
    · rw [if_pos hid] at h; simp at h
    · rw [if_neg hid] at h
      cases hsup : findEmployeeSupervisor s x with
      | some F2 =>
        rw [hsup] at h
        simp only [Option.some.injEq] at h
        obtain ⟨hmem, hc⟩ := findEmployeeSupervisor_some_spec s x F2 hsup
        subst h
        exact ⟨by simp [hmem], hc⟩
      | none =>
        rw [hsup] at h
        obtain ⟨hmem, hc⟩ := findSupervisorScan_deep ss x F h
        exact ⟨by simp [hmem], hc⟩
end

mutual
theorem findEmployeeSupervisor_none_spec : ∀ (t : Employee) (x : Int),
    findEmployeeSupervisor t x = none →
    ∀ S ∈ t.nodes, ∀ c ∈ S.subordinates, c.uniqueId ≠ x
  | .mk i n subs, x, h => by
    rw [findEmployeeSupervisor_mk] at h
    cases hs : findSupervisorScan subs x with
    | some r => rw [hs] at h; cases r <;> simp at h
    | none =>
      obtain ⟨hdirect, hdeep⟩ := findSupervisorScan_none_spec subs x hs
      intro S hS c hc
      rcases List.mem_cons.1 (by simpa using hS) with rfl | hS
      · exact hdirect c (by simpa using hc)
      · exact hdeep S hS c hc
theorem findSupervisorScan_none_spec : ∀ (l : List Employee) (x : Int),
    findSupervisorScan l x = none →
    (∀ s ∈ l, s.uniqueId ≠ x) ∧
    ∀ S ∈ Employee.nodesList l, ∀ c ∈ S.subordinates, c.uniqueId ≠ x
  | [], x, h => by simp
  | s :: ss, x, h => by
    rw [findSupervisorScan_cons] at h
    by_cases hid : s.uniqueId = x
    · rw [if_pos hid] at h; simp at h
    · rw [if_neg hid] at h
      cases hsup : findEmployeeSupervisor s x with
      | some F => rw [hsup] at h; simp at h
      | none =>
        rw [hsup] at h
        obtain ⟨hdirect, hdeep⟩ := findSupervisorScan_none_spec ss x h
        have hstree := findEmployeeSupervisor_none_spec s x hsup
        constructor
        · intro s2 hs2
          rcases List.mem_cons.1 hs2 with rfl | hs2
          · exact hid
          · exact hdirect s2 hs2
        · intro S hS c hc
          rcases List.mem_append.1 (by simpa using hS) with hS | hS
          · exact hstree S hS c hc
          · exact hdeep S hS c hc
end

mutual
theorem findEmployeeSupervisor_isSome : ∀ (t : Employee) (x : Int),
    x ∈ Employee.idsList t.subordinates → (findEmployeeSupervisor t x).isSome
  | .mk i n subs, x, h => by
    rw [Employee.subordinates_mk] at h
    have := findSupervisorScan_isSome subs x h
    rw [findEmployeeSupervisor_mk]
    cases hs : findSupervisorScan subs x with
    | none => rw [hs] at this; simp at this
    | some r => cases r <;> simp
theorem findSupervisorScan_isSome : ∀ (l : List Employee) (x : Int),
    x ∈ Employee.idsList l → (findSupervisorScan l x).isSome
  | [], x, h => by simp at h
  | s :: ss, x, h => by
    rw [findSupervisorScan_cons]
    by_cases hid : s.uniqueId = x
    · simp [hid]
    · rw [if_neg hid]
      rcases List.mem_append.1 (by simpa using h) with h | h
      · have hx : x ∈ Employee.idsList s.subordinates := by
          cases s with
          | mk j m tubs =>
            simp only [Employee.ids_mk, List.mem_cons] at h
            rcases h with rfl | h
            · simp at hid
            · simpa using h
        have := findEmployeeSupervisor_isSome s x hx
        cases hsup : findEmployeeSupervisor s x with
        | none => rw [hsup] at this; simp at this
        | some F => simp
      · cases hsup : findEmployeeSupervisor s x with
        | some F => simp
        | none => exact findSupervisorScan_isSome ss x h
end

mutual
/-- Number of occurrences of `x` as the id of an immediate subordinate,
summed over every node of the tree. -/
def Employee.childOcc (x : Int) : Employee → Nat
  | .mk _ _ subs => (subs.map Employee.uniqueId).count x + Employee.childOccList x subs
/-- `childOcc` summed over a list of trees. -/
def Employee.childOccList (x : Int) : List Employee → Nat
  | [] => 0
  | e :: es => Employee.childOcc x e + Employee.childOccList x es
end

@[simp] theorem Employee.childOcc_mk (x i : Int) (n : String) (subs : List Employee) :
    Employee.childOcc x (.mk i n subs) =
      (subs.map Employee.uniqueId).count x + Employee.childOccList x subs := rfl

@[simp] theorem Employee.childOccList_nil (x : Int) : Employee.childOccList x [] = 0 := rfl

@[simp] theorem Employee.childOccList_cons (x : Int) (e : Employee) (es : List Employee) :
    Employee.childOccList x (e :: es) =
      Employee.childOcc x e + Employee.childOccList x es := rfl

mutual
theorem count_ids_eq_childOcc : ∀ (t : Employee) (x : Int),
    t.ids.count x = (if t.uniqueId = x then 1 else 0) + Employee.childOcc x t
  | .mk i n subs, x => by
    have hl := count_idsList_eq_childOccList subs x
    simp only [Employee.ids_mk, List.count_cons, Employee.uniqueId_mk,
      Employee.childOcc_mk]
    rw [hl]
    by_cases hix : i = x
    · simp [hix]; omega
    · simp [hix, Ne.symm hix]
theorem count_idsList_eq_childOccList : ∀ (l : List Employee) (x : Int),
    (Employee.idsList l).count x =
      (l.map Employee.uniqueId).count x + Employee.childOccList x l
  | [], x => by simp
  | e :: es, x => by
    have he := count_ids_eq_childOcc e x
    have hes := count_idsList_eq_childOccList es x
    simp only [Employee.idsList_cons, List.count_append, List.map_cons,
      List.count_cons, Employee.childOccList_cons]
    rw [he, hes]
    by_cases hex : e.uniqueId = x
    · simp [hex]; omega
    · simp [hex, Ne.symm hex]; omega
end

mutual
theorem childIds_count_le_childOcc : ∀ (t S : Employee) (x : Int), S ∈ t.nodes →
    (S.childIds).count x ≤ Employee.childOcc x t
  | .mk i n subs, S, x, h => by
    rcases List.mem_cons.1 (by simpa using h) with rfl | h
    · simp [Employee.childIds]
    · have := childIds_count_le_childOccList subs S x h
      simp only [Employee.childOcc_mk]
      omega
theorem childIds_count_le_childOccList : ∀ (l : List Employee) (S : Employee) (x : Int),
    S ∈ Employee.nodesList l → (S.childIds).count x ≤ Employee.childOccList x l
  | [], S, x, h => by simp at h
  | s :: ss, S, x, h => by
    rcases List.mem_append.1 (by simpa using h) with h | h
    · have := childIds_count_le_childOcc s S x h
      simp only [Employee.childOccList_cons]
      omega
    · have := childIds_count_le_childOccList ss S x h
      simp only [Employee.childOccList_cons]
      omega
end

mutual
theorem childIds_count_two_le : ∀ (t S1 S2 : Employee) (x : Int),
    S1 ∈ t.nodes → S2 ∈ t.nodes → S1 ≠ S2 →
    (S1.childIds).count x + (S2.childIds).count x ≤ Employee.childOcc x t
  | .mk i n subs, S1, S2, x, h1, h2, hne => by
    rcases List.mem_cons.1 (by simpa using h1) with rfl | h1
    · rcases List.mem_cons.1 (by simpa using h2) with rfl | h2
      · exact absurd rfl hne
      · have := childIds_count_le_childOccList subs S2 x h2
        simp only [Employee.childIds] at this
        simp only [Employee.childOcc_mk, Employee.childIds, Employee.subordinates_mk]
        omega
    · rcases List.mem_cons.1 (by simpa using h2) with rfl | h2
      · have := childIds_count_le_childOccList subs S1 x h1
        simp only [Employee.childIds] at this
        simp only [Employee.childOcc_mk, Employee.childIds, Employee.subordinates_mk]
        omega
      · have := childIds_count_two_le_list subs S1 S2 x h1 h2 hne
        simp only [Employee.childOcc_mk]
        omega
theorem childIds_count_two_le_list : ∀ (l : List Employee) (S1 S2 : Employee) (x : Int),
    S1 ∈ Employee.nodesList l → S2 ∈ Employee.nodesList l → S1 ≠ S2 →
    (S1.childIds).count x + (S2.childIds).count x ≤ Employee.childOccList x l
  | [], S1, S2, x, h1, h2, hne => by simp at h1
  | s :: ss, S1, S2, x, h1, h2, hne => by
    rcases List.mem_append.1 (by simpa using h1) with h1 | h1 <;>
      rcases List.mem_append.1 (by simpa using h2) with h2 | h2
    · have := childIds_count_two_le s S1 S2 x h1 h2 hne
      simp only [Employee.childOccList_cons]
      omega
    · have ha := childIds_count_le_childOcc s S1 x h1
      have hb := childIds_count_le_childOccList ss S2 x h2
      simp only [Employee.childOccList_cons]
      omega
    · have ha := childIds_count_le_childOccList ss S1 x h1
      have hb := childIds_count_le_childOcc s S2 x h2
      simp only [Employee.childOccList_cons]
      omega
    · have := childIds_count_two_le_list ss S1 S2 x h1 h2 hne
      simp only [Employee.childOccList_cons]
      omega
end

/-- On a tree with pairwise distinct ids, at most one node has a subordinate
with a given id: supervisors are unique. -/
theorem supervisor_unique {t S1 S2 c1 c2 : Employee} {x : Int}
    (hnd : t.ids.Nodup) (h1 : S1 ∈ t.nodes) (h2 : S2 ∈ t.nodes)
    (hc1 : c1 ∈ S1.subordinates) (hc2 : c2 ∈ S2.subordinates)
    (hx1 : c1.uniqueId = x) (hx2 : c2.uniqueId = x) : S1 = S2 := by
  by_contra hne
  have k3 := childIds_count_two_le t S1 S2 x h1 h2 hne
  have m1 : (S1.childIds).count x ≠ 0 := by
    rw [Ne, List.count_eq_zero]
    exact fun hn => hn (List.mem_map.2 ⟨c1, hc1, hx1⟩)
  have m2 : (S2.childIds).count x ≠ 0 := by
    rw [Ne, List.count_eq_zero]
    exact fun hn => hn (List.mem_map.2 ⟨c2, hc2, hx2⟩)
  have kc1 := count_ids_eq_childOcc t x
  have hle := List.nodup_iff_count_le_one.1 hnd x
  by_cases hx : t.uniqueId = x <;> simp [hx] at kc1 <;> omega

theorem uniqueId_mem_idsList {l : List Employee} {a : Employee} (h : a ∈ l) :
    a.uniqueId ∈ Employee.idsList l :=
  (ids_sublist_of_mem_nodesList l a (Employee.mem_nodesList_of_mem h)).subset
    (Employee.uniqueId_mem_ids a)

theorem removeEmployee_mk (i : Int) (n : String) (subs : List Employee) (e : Int) :
    removeEmployee (.mk i n subs) e =
      match removeEmployeeList subs e with
      | (subs2, true) => (.mk i n subs2, true)
      | (_, false) => (.mk i n subs, false) := rfl

@[simp] theorem removeEmployeeList_nil (e : Int) : removeEmployeeList [] e = ([], false) := rfl

theorem removeEmployeeList_cons (s : Employee) (ss : List Employee) (e : Int) :
    removeEmployeeList (s :: ss) e =
      if s.uniqueId = e then ((s :: ss).filter (fun x => x.uniqueId != e), true)
      else
        match removeEmployee s e with
        | (s2, true) => (s2 :: ss, true)
        | (_, false) =>
          match removeEmployeeList ss e with
          | (ss2, true) => (s :: ss2, true)
          | (_, false) => (s :: ss, false) := rfl

@[simp] theorem filterAll_mk (i : Int) (n : String) (subs : List Employee) (e : Int) :
    filterAll (.mk i n subs) e = .mk i n (filterAllList subs e) := rfl

@[simp] theorem filterAllList_nil (e : Int) : filterAllList [] e = [] := rfl

theorem filterAllList_cons (s : Employee) (ss : List Employee) (e : Int) :
    filterAllList (s :: ss) e =
      if s.uniqueId = e then filterAllList ss e
      else filterAll s e :: filterAllList ss e := rfl

mutual
theorem removeEmployee_flag : ∀ (t : Employee) (e : Int),
    (removeEmployee t e).2 = (findEmployeeSupervisor t e).isSome
  | .mk i n subs, e => by
    have hl := removeEmployeeList_flag subs e
    rw [findEmployeeSupervisor_mk, removeEmployee_mk]
    rcases hr : removeEmployeeList subs e with ⟨subs2, b⟩
    rw [hr] at hl
    cases hs : findSupervisorScan subs e with
    | none =>
      rw [hs] at hl
      simp only [Option.isSome_none] at hl
      subst hl
      simp
    | some r =>
      rw [hs] at hl
      simp only [Option.isSome_some] at hl
      subst hl
      cases r <;> simp
theorem removeEmployeeList_flag : ∀ (l : List Employee) (e : Int),
    (removeEmployeeList l e).2 = (findSupervisorScan l e).isSome
  | [], e => by simp
  | s :: ss, e => by
    rw [removeEmployeeList_cons, findSupervisorScan_cons]
    by_cases hid : s.uniqueId = e
    · simp [hid]
    · rw [if_neg hid, if_neg hid]
      have ht := removeEmployee_flag s e
      rcases hr : removeEmployee s e with ⟨s2, b⟩
      rw [hr] at ht
      cases hsup : findEmployeeSupervisor s e with
      | some F =>
        rw [hsup] at ht
        simp only [Option.isSome_some] at ht
        subst ht
        simp [hr]
      | none =>
        rw [hsup] at ht
        simp only [Option.isSome_none] at ht
        subst ht
        have hl := removeEmployeeList_flag ss e
        rcases hr2 : removeEmployeeList ss e with ⟨ss2, b2⟩
        rw [hr2] at hl
        simp only at hl
        rw [← hl]
        cases b2 <;> simp [hr, hr2]
end

mutual
theorem filterAll_id : ∀ (t : Employee) (e : Int),
    (∀ S ∈ t.nodes, ∀ c ∈ S.subordinates, c.uniqueId ≠ e) → filterAll t e = t
  | .mk i n subs, e, h => by
    rw [filterAll_mk]
    have h1 : ∀ s ∈ subs, s.uniqueId ≠ e := fun s hs =>
      h (.mk i n subs) (Employee.self_mem_nodes _) s (by simpa using hs)
    have h2 : ∀ S ∈ Employee.nodesList subs, ∀ c ∈ S.subordinates, c.uniqueId ≠ e :=
      fun S hS => h S (by simp [hS])
    rw [filterAllList_id subs e h1 h2]
theorem filterAllList_id : ∀ (l : List Employee) (e : Int),
    (∀ s ∈ l, s.uniqueId ≠ e) →
    (∀ S ∈ Employee.nodesList l, ∀ c ∈ S.subordinates, c.uniqueId ≠ e) →
    filterAllList l e = l
  | [], e, _, _ => by simp
  | s :: ss, e, h1, h2 => by
    rw [filterAllList_cons, if_neg (h1 s (List.mem_cons_self s ss))]
    have hs : filterAll s e = s :=
      filterAll_id s e (fun S hS => h2 S (by simp [hS]))
    have hss : filterAllList ss e = ss :=
      filterAllList_id ss e (fun a ha => h1 a (List.mem_cons_of_mem s ha))
        (fun S hS => h2 S (by simp [hS]))
    rw [hs, hss]
end

theorem filterAll_eq_of_not_mem {t : Employee} {e : Int} (h : e ∉ t.ids) :
    filterAll t e = t :=
  filterAll_id t e fun S hS c hc hce =>
    h (hce ▸ uniqueId_mem_of_mem_nodes (mem_nodes_of_child t S c hS hc))

theorem filterAllList_eq_of_not_mem {l : List Employee} {e : Int}
    (h : e ∉ Employee.idsList l) : filterAllList l e = l := by
  induction l with
  | nil => simp
  | cons s ss ih =>
    rw [Employee.idsList_cons] at h
    simp only [List.mem_append] at h
    push_neg at h
    have hid : s.uniqueId ≠ e := fun he => h.1 (he ▸ Employee.uniqueId_mem_ids s)
    rw [filterAllList_cons, if_neg hid, filterAll_eq_of_not_mem h.1, ih h.2]

mutual
theorem removeEmployee_eq_filterAll : ∀ (t : Employee) (e : Int), t.ids.Nodup →
    (findEmployeeSupervisor t e).isSome → (removeEmployee t e).1 = filterAll t e
  | .mk i n subs, e, hnd, hsome => by
    have hscan : (findSupervisorScan subs e).isSome = true := by
      rw [findEmployeeSupervisor_mk] at hsome
      cases hs : findSupervisorScan subs e with
      | none => rw [hs] at hsome; simp at hsome
      | some r => simp
    have hndl : (Employee.idsList subs).Nodup := by
      rw [Employee.ids_mk, List.nodup_cons] at hnd
      exact hnd.2
    have hl := removeEmployeeList_eq_filterAllList subs e hndl hscan
    rw [removeEmployee_mk, filterAll_mk]
    rcases hr : removeEmployeeList subs e with ⟨subs2, b⟩
    have hb : b = true := by
      have hf := removeEmployeeList_flag subs e
      rw [hr] at hf
      simp only at hf
      rw [hf]
      exact hscan
    subst hb
    rw [hr] at hl
    simp only at hl
    simp [hl]
theorem removeEmployeeList_eq_filterAllList : ∀ (l : List Employee) (e : Int),
    (Employee.idsList l).Nodup → (findSupervisorScan l e).isSome →
    (removeEmployeeList l e).1 = filterAllList l e
  | [], e, _, hsome => by simp at hsome
  | s :: ss, e, hnd, hsome => by
    rw [Employee.idsList_cons, List.nodup_append] at hnd
    rw [removeEmployeeList_cons, filterAllList_cons]
    by_cases hid : s.uniqueId = e
    · rw [if_pos hid, if_pos hid]
      have hse : e ∉ Employee.idsList ss := fun hx =>
        hnd.2.2 (hid ▸ Employee.uniqueId_mem_ids s) hx
      have hfilter : ss.filter (fun x => x.uniqueId != e) = ss := by
        rw [List.filter_eq_self]
        intro a ha
        have hne : a.uniqueId ≠ e := fun he => hse (he ▸ uniqueId_mem_idsList ha)
        simpa using hne
      rw [List.filter_cons]
      simp only [hid, bne_self_eq_false, Bool.false_eq_true, if_false, hfilter]
      rw [filterAllList_eq_of_not_mem hse]
    · rw [if_neg hid, if_neg hid]
      cases hsup : findEmployeeSupervisor s e with
      | some F =>
        have hflag := removeEmployee_flag s e
        rw [hsup] at hflag
        simp only [Option.isSome_some] at hflag
        rcases hr : removeEmployee s e with ⟨s2, b⟩
        rw [hr] at hflag
        simp only at hflag
        subst hflag
        have hs2 : s2 = filterAll s e := by
          have := removeEmployee_eq_filterAll s e hnd.1 (by rw [hsup]; simp)
          rw [hr] at this
          exact this
        obtain ⟨hmem, c, hc, hcid⟩ := findEmployeeSupervisor_some_spec s e F hsup
        have hes : e ∈ s.ids :=
          hcid ▸ uniqueId_mem_of_mem_nodes (mem_nodes_of_child s F c hmem hc)
        have hse : e ∉ Employee.idsList ss := fun hx => hnd.2.2 hes hx
        rw [filterAllList_eq_of_not_mem hse]
        simp [hr, hs2]
      | none =>
        have hflag := removeEmployee_flag s e
        rw [hsup] at hflag
        simp only [Option.isSome_none] at hflag
        rcases hr : removeEmployee s e with ⟨s2, b⟩
        rw [hr] at hflag
        simp only at hflag
        subst hflag
        have hscanss : (findSupervisorScan ss e).isSome = true := by
          rw [findSupervisorScan_cons, if_neg hid, hsup] at hsome
          exact hsome
        have hl := removeEmployeeList_eq_filterAllList ss e hnd.2.1 hscanss
        have hflagss := removeEmployeeList_flag ss e
        rcases hr2 : removeEmployeeList ss e with ⟨ss2, b2⟩
        rw [hr2] at hflagss hl
        simp only at hflagss hl
        rw [← hflagss] at hscanss
        subst hscanss
        have hfa : filterAll s e = s :=
          filterAll_id s e (findEmployeeSupervisor_none_spec s e hsup)
        simp [hr, hr2, hl, hfa]
end

theorem removeStep_eq_filterAll {t : Employee} {e : Int} (hnd : t.ids.Nodup) :
    removeStep t e = filterAll t e := by
  unfold removeStep
  cases hsup : findEmployeeSupervisor t e with
  | none => exact (filterAll_id t e (findEmployeeSupervisor_none_spec t e hsup)).symm
  | some S => exact removeEmployee_eq_filterAll t e hnd (by rw [hsup]; simp)

theorem appendEmployee_mk (i : Int) (n : String) (subs : List Employee)
    (sv : Int) (emp : Employee) :
    appendEmployee (.mk i n subs) sv emp =
      if i = sv then (.mk i n (subs ++ [emp]), true)
      else
        match appendEmployeeList subs sv emp with
        | (subs2, true) => (.mk i n subs2, true)
        | (_, false) => (.mk i n subs, false) := rfl

@[simp] theorem appendEmployeeList_nil (sv : Int) (emp : Employee) :
    appendEmployeeList [] sv emp = ([], false) := rfl

theorem appendEmployeeList_cons (s : Employee) (ss : List Employee)
    (sv : Int) (emp : Employee) :
    appendEmployeeList (s :: ss) sv emp =
      match appendEmployee s sv emp with
      | (s2, true) => (s2 :: ss, true)
      | (_, false) =>
        match appendEmployeeList ss sv emp with
        | (ss2, true) => (s :: ss2, true)
        | (_, false) => (s :: ss, false) := rfl

theorem appendAll_mk (i : Int) (n : String) (subs : List Employee)
    (sv : Int) (emp : Employee) :
    appendAll (.mk i n subs) sv emp =
      if i = sv then .mk i n (appendAllList subs sv emp ++ [emp])
      else .mk i n (appendAllList subs sv emp) := rfl

@[simp] theorem appendAllList_nil (sv : Int) (emp : Employee) :
    appendAllList [] sv emp = [] := rfl

@[simp] theorem appendAllList_cons (s : Employee) (ss : List Employee)
    (sv : Int) (emp : Employee) :
    appendAllList (s :: ss) sv emp =
      appendAll s sv emp :: appendAllList ss sv emp := rfl

mutual
theorem appendEmployee_flag : ∀ (t : Employee) (sv : Int) (emp : Employee),
    (appendEmployee t sv emp).2 = (findEmployee t sv).isSome
  | .mk i n subs, sv, emp => by
    rw [appendEmployee_mk, findEmployee_mk]
    by_cases hiv : i = sv
    · simp [hiv]
    · rw [if_neg hiv, if_neg hiv]
      have hl := appendEmployeeList_flag subs sv emp
      rcases hr : appendEmployeeList subs sv emp with ⟨subs2, b⟩
      rw [hr] at hl
      simp only at hl
      rw [← hl]
      cases b <;> simp [hr]
theorem appendEmployeeList_flag : ∀ (l : List Employee) (sv : Int) (emp : Employee),
    (appendEmployeeList l sv emp).2 = (findEmployeeInList l sv).isSome
  | [], sv, emp => by simp
  | s :: ss, sv, emp => by
    rw [appendEmployeeList_cons]
    have ht := appendEmployee_flag s sv emp
    rcases hr : appendEmployee s sv emp with ⟨s2, b⟩
    rw [hr] at ht
    simp only at ht
    cases hfs : findEmployee s sv with
    | some f =>
      rw [hfs] at ht
      simp only [Option.isSome_some] at ht
      subst ht
      rw [findEmployeeInList_cons_some ss hfs]
      simp [hr]
    | none =>
      rw [hfs] at ht
      simp only [Option.isSome_none] at ht
      subst ht
      rw [findEmployeeInList_cons_none ss hfs]
      have hl := appendEmployeeList_flag ss sv emp
      rcases hr2 : appendEmployeeList ss sv emp with ⟨ss2, b2⟩
      rw [hr2] at hl
      simp only at hl
      rw [← hl]
      cases b2 <;> simp [hr, hr2]
end

mutual
theorem appendAll_eq_of_not_mem : ∀ (t : Employee) (sv : Int) (emp : Employee),
    sv ∉ t.ids → appendAll t sv emp = t
  | .mk i n subs, sv, emp, h => by
    rw [Employee.ids_mk, List.mem_cons] at h
    push_neg at h
    rw [appendAll_mk, if_neg (Ne.symm h.1)]
    rw [appendAllList_eq_of_not_mem subs sv emp h.2]
theorem appendAllList_eq_of_not_mem : ∀ (l : List Employee) (sv : Int) (emp : Employee),
    sv ∉ Employee.idsList l → appendAllList l sv emp = l
  | [], sv, emp, _ => by simp
  | s :: ss, sv, emp, h => by
    rw [Employee.idsList_cons, List.mem_append] at h
    push_neg at h
    rw [appendAllList_cons, appendAll_eq_of_not_mem s sv emp h.1,
      appendAllList_eq_of_not_mem ss sv emp h.2]
end

mutual
theorem appendEmployee_eq_appendAll : ∀ (t : Employee) (sv : Int) (emp : Employee),
    t.ids.Nodup → (appendEmployee t sv emp).1 = appendAll t sv emp
  | .mk i n subs, sv, emp, hnd => by
    rw [Employee.ids_mk, List.nodup_cons] at hnd
    rw [appendEmployee_mk, appendAll_mk]
    by_cases hiv : i = sv
    · rw [if_pos hiv, if_pos hiv,
        appendAllList_eq_of_not_mem subs sv emp (hiv ▸ hnd.1)]
    · rw [if_neg hiv, if_neg hiv]
      have hflag := appendEmployeeList_flag subs sv emp
      have hl := appendEmployeeList_eq_appendAllList subs sv emp hnd.2
      rcases hr : appendEmployeeList subs sv emp with ⟨subs2, b⟩
      rw [hr] at hflag hl
      simp only at hflag hl
      cases b
      · have hsv : sv ∉ Employee.idsList subs := by
          rw [← findEmployeeInList_isSome_iff, ← hflag]
          simp
        rw [appendAllList_eq_of_not_mem subs sv emp hsv]
      · rw [← hl]
theorem appendEmployeeList_eq_appendAllList : ∀ (l : List Employee) (sv : Int)
    (emp : Employee), (Employee.idsList l).Nodup →
    (appendEmployeeList l sv emp).1 = appendAllList l sv emp
  | [], sv, emp, _ => by simp
  | s :: ss, sv, emp, hnd => by
    rw [Employee.idsList_cons, List.nodup_append] at hnd
    rw [appendEmployeeList_cons, appendAllList_cons]
    have hflag := appendEmployee_flag s sv emp
    have ht := appendEmployee_eq_appendAll s sv emp hnd.1
    rcases hr : appendEmployee s sv emp with ⟨s2, b⟩
    rw [hr] at hflag ht
    simp only at hflag ht
    cases b
    · have hsv : sv ∉ s.ids := by
        rw [← findEmployee_isSome_iff, ← hflag]
        simp
      have hs : appendAll s sv emp = s := appendAll_eq_of_not_mem s sv emp hsv
      have hflagss := appendEmployeeList_flag ss sv emp
      have hlss := appendEmployeeList_eq_appendAllList ss sv emp hnd.2.1
      rcases hr2 : appendEmployeeList ss sv emp with ⟨ss2, b2⟩
      rw [hr2] at hflagss hlss
      simp only at hflagss hlss
      cases b2
      · have hsvss : sv ∉ Employee.idsList ss := by
          rw [← findEmployeeInList_isSome_iff, ← hflagss]
          simp
        rw [appendAllList_eq_of_not_mem ss sv emp hsvss]
        simp [hr, hr2, hs]
      · rw [← hlss]
        simp [hr, hr2, hs]
    · have hsv : sv ∈ s.ids := by
        rw [← findEmployee_isSome_iff, ← hflag]
      have hsvss : sv ∉ Employee.idsList ss := fun hx => hnd.2.2 hsv hx
      rw [appendAllList_eq_of_not_mem ss sv emp hsvss]
      simp [hr, ht]
end

theorem Employee.idsList_append (l1 l2 : List Employee) :
    Employee.idsList (l1 ++ l2) = Employee.idsList l1 ++ Employee.idsList l2 := by
  induction l1 with
  | nil => simp
  | cons e es ih => simp [ih]

mutual
theorem ids_filterAll_sublist : ∀ (t : Employee) (e : Int),
    (filterAll t e).ids.Sublist t.ids
  | .mk i n subs, e => by
    rw [filterAll_mk, Employee.ids_mk, Employee.ids_mk]
    exact (idsList_filterAllList_sublist subs e).cons_cons i
theorem idsList_filterAllList_sublist : ∀ (l : List Employee) (e : Int),
    (Employee.idsList (filterAllList l e)).Sublist (Employee.idsList l)
  | [], e => by simp
  | s :: ss, e => by
    rw [filterAllList_cons]
    by_cases hid : s.uniqueId = e
    · rw [if_pos hid, Employee.idsList_cons]
      exact (idsList_filterAllList_sublist ss e).trans
        (List.sublist_append_right s.ids (Employee.idsList ss))
    · rw [if_neg hid, Employee.idsList_cons, Employee.idsList_cons]
      exact (ids_filterAll_sublist s e).append (idsList_filterAllList_sublist ss e)
end

theorem nodup_filterAll {t : Employee} {e : Int} (hnd : t.ids.Nodup) :
    (filterAll t e).ids.Nodup :=
  (ids_filterAll_sublist t e).nodup hnd

mutual
theorem ids_appendAll_subset : ∀ (t : Employee) (sv : Int) (emp : Employee),
    (appendAll t sv emp).ids ⊆ t.ids ++ emp.ids
  | .mk i n subs, sv, emp => by
    rw [appendAll_mk]
    by_cases hiv : i = sv
    · rw [if_pos hiv]
      intro x hx
      rw [Employee.ids_mk, Employee.idsList_append] at hx
      rcases List.mem_cons.1 hx with rfl | hx
      · simp
      · rcases List.mem_append.1 hx with hx | hx
        · have := idsList_appendAllList_subset subs sv emp hx
          rcases List.mem_append.1 this with hx2 | hx2
          · simp only [Employee.ids_mk, List.cons_append, List.mem_cons]
            exact Or.inr (List.mem_append_left _ hx2)
          · simp only [Employee.ids_mk, List.cons_append, List.mem_cons]
            exact Or.inr (List.mem_append_right _ hx2)
        · simp only [Employee.idsList_cons, Employee.idsList_nil, List.append_nil] at hx
          simp only [Employee.ids_mk, List.cons_append, List.mem_cons]
          exact Or.inr (List.mem_append_right _ hx)
    · rw [if_neg hiv]
      intro x hx
      rw [Employee.ids_mk] at hx
      rcases List.mem_cons.1 hx with rfl | hx
      · simp
      · have := idsList_appendAllList_subset subs sv emp hx
        simp only [Employee.ids_mk, List.cons_append, List.mem_cons]
        rcases List.mem_append.1 this with hx2 | hx2
        · exact Or.inr (List.mem_append_left _ hx2)
        · exact Or.inr (List.mem_append_right _ hx2)
theorem idsList_appendAllList_subset : ∀ (l : List Employee) (sv : Int) (emp : Employee),
    Employee.idsList (appendAllList l sv emp) ⊆ Employee.idsList l ++ emp.ids
  | [], sv, emp => by simp
  | s :: ss, sv, emp => by
    rw [appendAllList_cons, Employee.idsList_cons, Employee.idsList_cons]
    intro x hx
    rcases List.mem_append.1 hx with hx | hx
    · have := ids_appendAll_subset s sv emp hx
      rcases List.mem_append.1 this with hx2 | hx2
      · exact List.mem_append_left _ (List.mem_append_left _ hx2)
      · exact List.mem_append_right _ hx2
    · have := idsList_appendAllList_subset ss sv emp hx
      rcases List.mem_append.1 this with hx2 | hx2
      · exact List.mem_append_left _ (List.mem_append_right _ hx2)
      · exact List.mem_append_right _ hx2
end

mutual
theorem ids_appendAll_perm : ∀ (t : Employee) (sv : Int) (emp : Employee),
    t.ids.Nodup → sv ∈ t.ids → (appendAll t sv emp).ids.Perm (t.ids ++ emp.ids)
  | .mk i n subs, sv, emp, hnd, hsv => by
    rw [Employee.ids_mk, List.nodup_cons] at hnd
    rw [appendAll_mk]
    by_cases hiv : i = sv
    · rw [if_pos hiv, appendAllList_eq_of_not_mem subs sv emp (hiv ▸ hnd.1)]
      rw [Employee.ids_mk, Employee.idsList_append, Employee.ids_mk]
      simp only [Employee.idsList_cons, Employee.idsList_nil, List.append_nil,
        List.cons_append]
      exact List.Perm.refl _
    · rw [if_neg hiv]
      have hsvl : sv ∈ Employee.idsList subs := by
        rcases List.mem_cons.1 (by simpa using hsv) with rfl | h
        · exact absurd rfl hiv
        · exact h
      have := idsList_appendAllList_perm subs sv emp hnd.2 hsvl
      rw [Employee.ids_mk, Employee.ids_mk, List.cons_append]
      exact this.cons i
theorem idsList_appendAllList_perm : ∀ (l : List Employee) (sv : Int) (emp : Employee),
    (Employee.idsList l).Nodup → sv ∈ Employee.idsList l →
    (Employee.idsList (appendAllList l sv emp)).Perm (Employee.idsList l ++ emp.ids)
  | [], sv, emp, _, hsv => by simp at hsv
  | s :: ss, sv, emp, hnd, hsv => by
    rw [Employee.idsList_cons, List.nodup_append] at hnd
    rw [appendAllList_cons, Employee.idsList_cons, Employee.idsList_cons]
    rcases List.mem_append.1 (by simpa using hsv) with hsv | hsv
    · have hsvss : sv ∉ Employee.idsList ss := fun hx => hnd.2.2 hsv hx
      rw [appendAllList_eq_of_not_mem ss sv emp hsvss]
      have hp := ids_appendAll_perm s sv emp hnd.1 hsv
      refine (hp.append_right _).trans ?_
      rw [List.append_assoc, List.append_assoc]
      exact List.Perm.append_left s.ids List.perm_append_comm
    · have hsvs : sv ∉ s.ids := fun hx => hnd.2.2 hx hsv
      rw [appendAll_eq_of_not_mem s sv emp hsvs]
      have hp := idsList_appendAllList_perm ss sv emp hnd.2.1 hsv
      simpa [List.append_assoc] using hp.append_left s.ids
end

theorem findEmployee_self {s : Employee} {e : Int} (h : s.uniqueId = e) :
    findEmployee s e = some s := by
  cases s with
  | mk j m tubs =>
    simp only [Employee.uniqueId_mk] at h
    rw [findEmployee_mk, if_pos h]

mutual
theorem filterAll_removes : ∀ (t : Employee) (e : Int) (E : Employee),
    t.ids.Nodup → findEmployee t e = some E → e ≠ t.uniqueId →
    ∀ x ∈ E.ids, x ∉ (filterAll t e).ids
  | .mk i n subs, e, E, hnd, hE, hne, x, hx => by
    rw [Employee.ids_mk, List.nodup_cons] at hnd
    simp only [Employee.uniqueId_mk] at hne
    rw [findEmployee_mk, if_neg (fun h => hne h.symm)] at hE
    obtain ⟨hid, hmem⟩ := findEmployeeInList_some_spec subs e E hE
    have hxl : x ∈ Employee.idsList subs :=
      (ids_sublist_of_mem_nodesList subs E hmem).subset hx
    have hxi : x ≠ i := fun h => hnd.1 (h ▸ hxl)
    rw [filterAll_mk, Employee.ids_mk, List.mem_cons]
    push_neg
    exact ⟨hxi, filterAllList_removes subs e E hnd.2 hE x hx⟩
theorem filterAllList_removes : ∀ (l : List Employee) (e : Int) (E : Employee),
    (Employee.idsList l).Nodup → findEmployeeInList l e = some E →
    ∀ x ∈ E.ids, x ∉ Employee.idsList (filterAllList l e)
  | [], e, E, _, hE, x, hx => by simp at hE
  | s :: ss, e, E, hnd, hE, x, hx => by
    rw [Employee.idsList_cons, List.nodup_append] at hnd
    cases hfs : findEmployee s e with
    | some E2 =>
      rw [findEmployeeInList_cons_some ss hfs] at hE
      have hE2 : E2 = E := by injection hE
      subst hE2
      have hes : e ∈ s.ids := by
        rw [← findEmployee_isSome_iff, hfs]; simp
      have hess : e ∉ Employee.idsList ss := fun hx2 => hnd.2.2 hes hx2
      have hxs : x ∈ s.ids :=
        (ids_sublist_of_mem_nodes s E2 (findEmployee_some_spec s e E2 hfs).2).subset hx
      have hxss : x ∉ Employee.idsList ss := fun hx2 => hnd.2.2 hxs hx2
      rw [filterAllList_cons]
      by_cases hid : s.uniqueId = e
      · rw [if_pos hid, filterAllList_eq_of_not_mem hess]
        exact hxss
      · rw [if_neg hid, Employee.idsList_cons, List.mem_append]
        push_neg
        refine ⟨filterAll_removes s e E2 hnd.1 hfs (fun h => hid h.symm) x hx, ?_⟩
        rw [filterAllList_eq_of_not_mem hess]
        exact hxss
    | none =>
      rw [findEmployeeInList_cons_none ss hfs] at hE
      have hse : e ∉ s.ids := findEmployee_eq_none_iff.1 hfs
      have hsid : s.uniqueId ≠ e := fun h => hse (h ▸ Employee.uniqueId_mem_ids s)
      have hxss : x ∈ Employee.idsList ss :=
        (ids_sublist_of_mem_nodesList ss E (findEmployeeInList_some_spec ss e E hE).2).subset hx
      have hxs : x ∉ s.ids := fun hx2 => hnd.2.2 hx2 hxss
      rw [filterAllList_cons, if_neg hsid, Employee.idsList_cons, List.mem_append]
      push_neg
      refine ⟨fun hx2 => hxs ((ids_filterAll_sublist s e).subset hx2), ?_⟩
      exact filterAllList_removes ss e E hnd.2.1 hE x hx
end

mutual
theorem filterAll_keeps : ∀ (t : Employee) (e : Int) (E : Employee) (x : Int),
    t.ids.Nodup → findEmployee t e = some E → x ∈ t.ids → x ∉ E.ids →
    x ∈ (filterAll t e).ids
  | .mk i n subs, e, E, x, hnd, hE, hx, hxE => by
    rw [Employee.ids_mk, List.nodup_cons] at hnd
    rw [findEmployee_mk] at hE
    by_cases hie : i = e
    · rw [if_pos hie] at hE
      simp only [Option.some.injEq] at hE
      subst hE
      exact absurd hx hxE
    · rw [if_neg hie] at hE
      rw [filterAll_mk, Employee.ids_mk, List.mem_cons]
      rcases List.mem_cons.1 (by simpa using hx) with rfl | hxl
      · exact Or.inl rfl
      · exact Or.inr (filterAllList_keeps subs e E x hnd.2 hE hxl hxE)
theorem filterAllList_keeps : ∀ (l : List Employee) (e : Int) (E : Employee) (x : Int),
    (Employee.idsList l).Nodup → findEmployeeInList l e = some E →
    x ∈ Employee.idsList l → x ∉ E.ids → x ∈ Employee.idsList (filterAllList l e)
  | [], e, E, x, _, hE, hx, _ => by simp at hE
  | s :: ss, e, E, x, hnd, hE, hx, hxE => by
    rw [Employee.idsList_cons, List.nodup_append] at hnd
    cases hfs : findEmployee s e with
    | some E2 =>
      rw [findEmployeeInList_cons_some ss hfs] at hE
      have hE2 : E2 = E := by injection hE
      subst hE2
      have hes : e ∈ s.ids := by
        rw [← findEmployee_isSome_iff, hfs]; simp
      have hess : e ∉ Employee.idsList ss := fun h2 => hnd.2.2 hes h2
      rw [filterAllList_cons]
      rcases List.mem_append.1 (by simpa using hx) with hxl | hxl
      · by_cases hid : s.uniqueId = e
        · have hEs : E2 = s := by
            have h3 := findEmployee_self hid
            rw [hfs] at h3
            simpa using h3
          subst hEs
          exact absurd hxl hxE
        · rw [if_neg hid, Employee.idsList_cons, List.mem_append]
          exact Or.inl (filterAll_keeps s e E2 x hnd.1 hfs hxl hxE)
      · by_cases hid : s.uniqueId = e
        · rw [if_pos hid, filterAllList_eq_of_not_mem hess]
          exact hxl
        · rw [if_neg hid, Employee.idsList_cons, List.mem_append,
            filterAllList_eq_of_not_mem hess]
          exact Or.inr hxl
    | none =>
      rw [findEmployeeInList_cons_none ss hfs] at hE
      have hse : e ∉ s.ids := findEmployee_eq_none_iff.1 hfs
      have hsid : s.uniqueId ≠ e := fun h => hse (h ▸ Employee.uniqueId_mem_ids s)
      rw [filterAllList_cons, if_neg hsid, Employee.idsList_cons, List.mem_append,
        filterAll_eq_of_not_mem hse]
      rcases List.mem_append.1 (by simpa using hx) with hxl | hxl
      · exact Or.inl hxl
      · exact Or.inr (filterAllList_keeps ss e E x hnd.2.1 hE hxl hxE)
end

theorem findEmployeeInList_eq_none_iff {l : List Employee} {x : Int} :
    findEmployeeInList l x = none ↔ x ∉ Employee.idsList l := by
  rw [← findEmployeeInList_isSome_iff, Option.not_isSome_iff_eq_none]

theorem findEmployeeInList_append (l1 l2 : List Employee) (x : Int) :
    findEmployeeInList (l1 ++ l2) x =
      match findEmployeeInList l1 x with
      | some f => some f
      | none => findEmployeeInList l2 x := by
  induction l1 with
  | nil => simp
  | cons s ss ih =>
    cases hfs : findEmployee s x with
    | some f =>
      rw [List.cons_append, findEmployeeInList_cons_some (ss ++ l2) hfs,
        findEmployeeInList_cons_some ss hfs]
    | none =>
      rw [List.cons_append, findEmployeeInList_cons_none (ss ++ l2) hfs,
        findEmployeeInList_cons_none ss hfs, ih]

theorem findEmployeeInList_singleton (emp : Employee) (x : Int) :
    findEmployeeInList [emp] x = findEmployee emp x := by
  cases hfe : findEmployee emp x with
  | some f => rw [findEmployeeInList_cons_some [] hfe]
  | none => rw [findEmployeeInList_cons_none [] hfe]; rfl

theorem filterAll_uniqueId (s : Employee) (e : Int) :
    (filterAll s e).uniqueId = s.uniqueId := by
  cases s with | mk i n subs => simp

theorem appendAll_uniqueId (s : Employee) (sv : Int) (emp : Employee) :
    (appendAll s sv emp).uniqueId = s.uniqueId := by
  cases s with
  | mk i n subs =>
    rw [appendAll_mk]
    by_cases hiv : i = sv
    · rw [if_pos hiv]; simp
    · rw [if_neg hiv]; simp

theorem map_uniqueId_filterAllList (l : List Employee) (e : Int) :
    (filterAllList l e).map Employee.uniqueId =
      (l.map Employee.uniqueId).filter (fun y => y != e) := by
  induction l with
  | nil => simp
  | cons s ss ih =>
    rw [filterAllList_cons]
    by_cases hid : s.uniqueId = e
    · rw [if_pos hid]
      simp [hid, ih]
    · rw [if_neg hid]
      simp only [List.map_cons, filterAll_uniqueId, List.filter_cons]
      have h2 : (s.uniqueId != e) = true := by simpa using hid
      rw [h2, ih]
      simp

theorem map_uniqueId_appendAllList (l : List Employee) (sv : Int) (emp : Employee) :
    (appendAllList l sv emp).map Employee.uniqueId = l.map Employee.uniqueId := by
  induction l with
  | nil => simp
  | cons s ss ih => simp [appendAll_uniqueId, ih]

theorem childIds_filterAll (N : Employee) (e : Int) :
    (filterAll N e).childIds = N.childIds.filter (fun y => y != e) := by
  cases N with
  | mk i n subs =>
    rw [filterAll_mk]
    simp only [Employee.childIds, Employee.subordinates_mk]
    exact map_uniqueId_filterAllList subs e

theorem childIds_appendAll (N : Employee) (sv : Int) (emp : Employee) :
    (appendAll N sv emp).childIds =
      if N.uniqueId = sv then N.childIds ++ [emp.uniqueId] else N.childIds := by
  cases N with
  | mk i n subs =>
    rw [appendAll_mk]
    by_cases hiv : i = sv
    · rw [if_pos hiv]
      simp only [Employee.childIds, Employee.subordinates_mk, Employee.uniqueId_mk,
        if_pos hiv, List.map_append]
      rw [map_uniqueId_appendAllList]
      simp
    · rw [if_neg hiv]
      simp only [Employee.childIds, Employee.subordinates_mk, Employee.uniqueId_mk,
        if_neg hiv]
      exact map_uniqueId_appendAllList subs sv emp

mutual
theorem findEmployee_subtree : ∀ (t : Employee) (e : Int) (E : Employee) (x : Int),
    t.ids.Nodup → findEmployee t e = some E → x ∈ E.ids →
    findEmployee t x = findEmployee E x
  | .mk i n subs, e, E, x, hnd, hE, hx => by
    rw [findEmployee_mk] at hE
    by_cases hie : i = e
    · rw [if_pos hie] at hE
      simp only [Option.some.injEq] at hE
      subst hE
      rfl
    · rw [if_neg hie] at hE
      rw [Employee.ids_mk, List.nodup_cons] at hnd
      have hmem := (findEmployeeInList_some_spec subs e E hE).2
      have hxsubs : x ∈ Employee.idsList subs :=
        (ids_sublist_of_mem_nodesList subs E hmem).subset hx
      have hxi : i ≠ x := fun h => hnd.1 (h ▸ hxsubs)
      rw [findEmployee_mk, if_neg hxi]
      exact findEmployeeInList_subtree subs e E x hnd.2 hE hx
theorem findEmployeeInList_subtree : ∀ (l : List Employee) (e : Int) (E : Employee) (x : Int),
    (Employee.idsList l).Nodup → findEmployeeInList l e = some E → x ∈ E.ids →
    findEmployeeInList l x = findEmployee E x
  | [], e, E, x, _, hE, _ => by simp at hE
  | s :: ss, e, E, x, hnd, hE, hx => by
    rw [Employee.idsList_cons, List.nodup_append] at hnd
    cases hfs : findEmployee s e with
    | some E2 =>
      rw [findEmployeeInList_cons_some ss hfs] at hE
      have hE2 : E2 = E := by injection hE
      subst hE2
      have htree := findEmployee_subtree s e E2 x hnd.1 hfs hx
      have hsomeE : (findEmployee E2 x).isSome := by
        rw [findEmployee_isSome_iff]
        exact hx
      obtain ⟨N, hN⟩ := Option.isSome_iff_exists.1 hsomeE
      rw [findEmployeeInList_cons_some ss (htree.trans hN), hN]
    | none =>
      rw [findEmployeeInList_cons_none ss hfs] at hE
      have hmem := (findEmployeeInList_some_spec ss e E hE).2
      have hxss : x ∈ Employee.idsList ss :=
        (ids_sublist_of_mem_nodesList ss E hmem).subset hx
      have hxs : x ∉ s.ids := fun h2 => hnd.2.2 h2 hxss
      rw [findEmployeeInList_cons_none ss (findEmployee_eq_none_iff.2 hxs)]
      exact findEmployeeInList_subtree ss e E x hnd.2.1 hE hx
end

mutual
theorem findEmployee_filterAll : ∀ (t : Employee) (e x : Int),
    t.ids.Nodup → x ∈ (filterAll t e).ids →
    findEmployee (filterAll t e) x = (findEmployee t x).map (fun nd => filterAll nd e)
  | .mk i n subs, e, x, hnd, hx => by
    rw [Employee.ids_mk, List.nodup_cons] at hnd
    by_cases hix : i = x
    · subst hix
      rw [filterAll_mk, findEmployee_mk, findEmployee_mk]
      simp
    · rw [filterAll_mk, findEmployee_mk, findEmployee_mk, if_neg hix, if_neg hix]
      rw [filterAll_mk, Employee.ids_mk] at hx
      rcases List.mem_cons.1 hx with rfl | hx2
      · exact absurd rfl hix
      · exact findEmployeeInList_filterAllList subs e x hnd.2 hx2
theorem findEmployeeInList_filterAllList : ∀ (l : List Employee) (e x : Int),
    (Employee.idsList l).Nodup → x ∈ Employee.idsList (filterAllList l e) →
    findEmployeeInList (filterAllList l e) x =
      (findEmployeeInList l x).map (fun nd => filterAll nd e)
  | [], e, x, _, hx => by simp at hx
  | s :: ss, e, x, hnd, hx => by
    rw [Employee.idsList_cons, List.nodup_append] at hnd
    rw [filterAllList_cons] at hx ⊢
    by_cases hid : s.uniqueId = e
    · rw [if_pos hid] at hx ⊢
      have hxss : x ∈ Employee.idsList ss :=
        (idsList_filterAllList_sublist ss e).subset hx
      have hxs : x ∉ s.ids := fun h2 => hnd.2.2 h2 hxss
      rw [findEmployeeInList_cons_none ss (findEmployee_eq_none_iff.2 hxs)]
      exact findEmployeeInList_filterAllList ss e x hnd.2.1 hx
    · rw [if_neg hid] at hx ⊢
      by_cases hxf : x ∈ (filterAll s e).ids
      · have hxs : x ∈ s.ids := (ids_filterAll_sublist s e).subset hxf
        obtain ⟨N, hN⟩ := findEmployee_isSome_of_mem hxs
        have hrec := findEmployee_filterAll s e x hnd.1 hxf
        rw [hN, Option.map_some'] at hrec
        rw [findEmployeeInList_cons_some (filterAllList ss e) hrec,
          findEmployeeInList_cons_some ss hN, Option.map_some']
      · have hxtail : x ∈ Employee.idsList (filterAllList ss e) := by
          rcases List.mem_append.1 (by simpa using hx) with h | h
          · exact absurd h hxf
          · exact h
        have hxss : x ∈ Employee.idsList ss :=
          (idsList_filterAllList_sublist ss e).subset hxtail
        have hxs : x ∉ s.ids := fun h2 => hnd.2.2 h2 hxss
        rw [findEmployeeInList_cons_none (filterAllList ss e)
            (findEmployee_eq_none_iff.2 hxf),
          findEmployeeInList_cons_none ss (findEmployee_eq_none_iff.2 hxs)]
        exact findEmployeeInList_filterAllList ss e x hnd.2.1 hxtail
end

mutual
theorem findEmployee_appendAll : ∀ (t : Employee) (sv : Int) (emp : Employee) (x : Int),
    t.ids.Nodup → x ∈ t.ids → x ∉ emp.ids →
    findEmployee (appendAll t sv emp) x =
      (findEmployee t x).map (fun nd => appendAll nd sv emp)
  | .mk i n subs, sv, emp, x, hnd, hx, hxe => by
    rw [Employee.ids_mk, List.nodup_cons] at hnd
    by_cases hix : i = x
    · subst hix
      rw [appendAll_mk]
      by_cases hiv : i = sv
      · rw [if_pos hiv, findEmployee_mk, findEmployee_mk]
        simp [appendAll_mk, hiv]
      · rw [if_neg hiv, findEmployee_mk, findEmployee_mk]
        simp [appendAll_mk, hiv]
    · have hxl : x ∈ Employee.idsList subs := by
        rcases List.mem_cons.1 (by simpa using hx) with rfl | h
        · exact absurd rfl hix
        · exact h
      rw [appendAll_mk]
      by_cases hiv : i = sv
      · rw [if_pos hiv, findEmployee_mk, findEmployee_mk, if_neg hix, if_neg hix,
          appendAllList_eq_of_not_mem subs sv emp (hiv ▸ hnd.1),
          findEmployeeInList_append]
        obtain ⟨N, hN⟩ := Option.isSome_iff_exists.1
          ((findEmployeeInList_isSome_iff subs x).2 hxl)
        rw [hN, Option.map_some']
        have hsvN : sv ∉ N.ids := fun h2 =>
          (hiv ▸ hnd.1)
            ((ids_sublist_of_mem_nodesList subs N
              (findEmployeeInList_some_spec subs x N hN).2).subset h2)
        rw [appendAll_eq_of_not_mem N sv emp hsvN]
      · rw [if_neg hiv, findEmployee_mk, findEmployee_mk, if_neg hix, if_neg hix]
        exact findEmployeeInList_appendAllList subs sv emp x hnd.2 hxl hxe
theorem findEmployeeInList_appendAllList : ∀ (l : List Employee) (sv : Int)
    (emp : Employee) (x : Int),
    (Employee.idsList l).Nodup → x ∈ Employee.idsList l → x ∉ emp.ids →
    findEmployeeInList (appendAllList l sv emp) x =
      (findEmployeeInList l x).map (fun nd => appendAll nd sv emp)
  | [], sv, emp, x, _, hx, _ => by simp at hx
  | s :: ss, sv, emp, x, hnd, hx, hxe => by
    rw [Employee.idsList_cons, List.nodup_append] at hnd
    rw [appendAllList_cons]
    rcases List.mem_append.1 (by simpa using hx) with hxs | hxss
    · obtain ⟨N, hN⟩ := findEmployee_isSome_of_mem hxs
      have hrec := findEmployee_appendAll s sv emp x hnd.1 hxs hxe
      rw [hN, Option.map_some'] at hrec
      rw [findEmployeeInList_cons_some (appendAllList ss sv emp) hrec,
        findEmployeeInList_cons_some ss hN, Option.map_some']
    · have hxs : x ∉ s.ids := fun h2 => hnd.2.2 h2 hxss
      have hhead : findEmployee (appendAll s sv emp) x = none := by
        rw [findEmployee_eq_none_iff]
        intro hmem
        rcases List.mem_append.1 (ids_appendAll_subset s sv emp hmem) with h | h
        · exact hxs h
        · exact hxe h
      rw [findEmployeeInList_cons_none (appendAllList ss sv emp) hhead,
        findEmployeeInList_cons_none ss (findEmployee_eq_none_iff.2 hxs)]
      exact findEmployeeInList_appendAllList ss sv emp x hnd.2.1 hxss hxe
end

mutual
theorem findEmployee_appended : ∀ (t : Employee) (sv : Int) (emp : Employee) (x : Int),
    t.ids.Nodup → sv ∈ t.ids → x ∈ emp.ids → x ∉ t.ids →
    findEmployee (appendAll t sv emp) x = findEmployee emp x
  | .mk i n subs, sv, emp, x, hnd, hsv, hxe, hxt => by
    rw [Employee.ids_mk, List.nodup_cons] at hnd
    have hxi : i ≠ x := fun h => hxt (by simp [h])
    have hxsubs : x ∉ Employee.idsList subs := fun h => hxt (by simp [h])
    rw [appendAll_mk]
    by_cases hiv : i = sv
    · rw [if_pos hiv, findEmployee_mk, if_neg hxi,
        appendAllList_eq_of_not_mem subs sv emp (hiv ▸ hnd.1),
        findEmployeeInList_append, findEmployeeInList_eq_none_iff.2 hxsubs,
        findEmployeeInList_singleton]
    · rw [if_neg hiv, findEmployee_mk, if_neg hxi]
      have hsvl : sv ∈ Employee.idsList subs := by
        rcases List.mem_cons.1 (by simpa using hsv) with rfl | h
        · exact absurd rfl hiv
        · exact h
      exact findEmployeeInList_appended subs sv emp x hnd.2 hsvl hxe hxsubs
theorem findEmployeeInList_appended : ∀ (l : List Employee) (sv : Int)
    (emp : Employee) (x : Int),
    (Employee.idsList l).Nodup → sv ∈ Employee.idsList l → x ∈ emp.ids →
    x ∉ Employee.idsList l →
    findEmployeeInList (appendAllList l sv emp) x = findEmployee emp x
  | [], sv, emp, x, _, hsv, _, _ => by simp at hsv
  | s :: ss, sv, emp, x, hnd, hsv, hxe, hxl => by
    rw [Employee.idsList_cons, List.nodup_append] at hnd
    rw [Employee.idsList_cons, List.mem_append] at hxl
    push_neg at hxl
    rw [appendAllList_cons]
    rcases List.mem_append.1 (by simpa using hsv) with hsvs | hsvss
    · have htree := findEmployee_appended s sv emp x hnd.1 hsvs hxe hxl.1
      obtain ⟨N, hN⟩ := Option.isSome_iff_exists.1
        ((findEmployee_isSome_iff emp x).2 hxe)
      rw [findEmployeeInList_cons_some (appendAllList ss sv emp) (htree.trans hN), hN]
    · have hsvs : sv ∉ s.ids := fun h2 => hnd.2.2 h2 hsvss
      rw [appendAll_eq_of_not_mem s sv emp hsvs,
        findEmployeeInList_cons_none (appendAllList ss sv emp)
          (findEmployee_eq_none_iff.2 hxl.1)]
      exact findEmployeeInList_appended ss sv emp x hnd.2.1 hsvss hxe hxl.2
end

theorem move_sem {s s2 : AppState} {e sv : Int} {E : Employee}
    (hnd : s.current.ids.Nodup)
    (hE : findEmployee s.current e = some E)
    (h : s.move e sv = Except.ok s2) :
    s2.current = appendAll (filterAll s.current e) sv E := by
  have h3 := (move_ok_inv h).2.2
  rw [hE] at h3
  simp only [Option.getD_some] at h3
  rw [h3, removeStep_eq_filterAll hnd,
    appendEmployee_eq_appendAll _ sv E (nodup_filterAll hnd)]

theorem move_nodup {s s2 : AppState} {e sv : Int}
    (hnd : s.current.ids.Nodup) (hok : s.move e sv = Except.ok s2)
    (hroot : e ≠ s.current.uniqueId) :
    s2.current.ids.Nodup := by
  cases hE : findEmployee s.current e with
  | none =>
    unfold AppState.move at hok
    rw [hE] at hok
    simp at hok
  | some E =>
    have hcur := move_sem hnd hE hok
    have hnd1 : (filterAll s.current e).ids.Nodup := nodup_filterAll hnd
    by_cases hsv1 : sv ∈ (filterAll s.current e).ids
    · have hperm := ids_appendAll_perm (filterAll s.current e) sv E hnd1 hsv1
      rw [hcur, hperm.nodup_iff]
      refine List.Nodup.append hnd1
        (nodup_of_mem_nodes hnd (findEmployee_some_spec _ _ _ hE).2) ?_
      intro x hx1 hxE
      exact filterAll_removes s.current e E hnd hE hroot x hxE hx1
    · rw [hcur, appendAll_eq_of_not_mem (filterAll s.current e) sv E hsv1]
      exact hnd1

/-- C10: `move(id, id)` on a resolvable non-root id succeeds and removes the
node from the root-reachable tree entirely: its subtree is filtered out of
its current supervisor's subordinates, and since the self-append lands on
the now-detached node (in the source it pushes the node onto its own
subordinate array), the node and its whole subtree are unreachable from the
root afterwards. -/
theorem C10_self_move (s : AppState) (e : Int) (E : Employee)
    (hnd : s.current.ids.Nodup)
    (hE : findEmployee s.current e = some E)
    (hroot : e ≠ s.current.uniqueId) :
    ∃ s2, s.move e e = Except.ok s2 ∧
      s2.current = filterAll s.current e ∧
      ∀ x ∈ E.ids, x ∉ s2.current.ids := by
  have hok : ∃ s2, s.move e e = Except.ok s2 := by
    unfold AppState.move
    rw [hE]
    exact ⟨_, rfl⟩
  obtain ⟨s2, hok⟩ := hok
  have hcur := move_sem hnd hE hok
  have heE : e ∈ E.ids := by
    have h2 := (findEmployee_some_spec _ _ _ hE).1
    rw [← h2]
    exact Employee.uniqueId_mem_ids E
  have hrm := filterAll_removes s.current e E hnd hE hroot
  rw [appendAll_eq_of_not_mem _ e E (hrm e heE)] at hcur
  exact ⟨s2, hok, hcur, fun x hx => by rw [hcur]; exact hrm x hx⟩

/-- C10 witness: `move(2, 2)` on the concrete chart detaches employee 2. -/
theorem C10_witness :
    (AppState.init exTree).current.ids.Nodup ∧
    findEmployee (AppState.init exTree).current 2 = some (.mk 2 "A" []) ∧
    (2 : Int) ≠ (AppState.init exTree).current.uniqueId ∧
    ∃ s2, (AppState.init exTree).move 2 2 = Except.ok s2 ∧
      s2.current = filterAll (AppState.init exTree).current 2 ∧
      ∀ x ∈ (Employee.mk 2 "A" []).ids, x ∉ s2.current.ids :=
  ⟨by decide, by decide, by decide,
    C10_self_move _ 2 _ (by decide) (by decide) (by decide)⟩

/-- The preconditions of claim C6 along a run: every call is a `move`, both
ids resolve on the live tree at call time, and — the amendment — the moved
employee is not the root of the live tree. -/
def movesOkNonRoot : AppState → List Op → Bool
  | _, [] => true
  | s, Op.move e sv :: rest =>
    (findEmployee s.current e).isSome && (findEmployee s.current sv).isSome &&
    !(e == s.current.uniqueId) && movesOkNonRoot (s.step (Op.move e sv)) rest
  | _, Op.undo :: _ => false
  | _, Op.redo :: _ => false

/-- C6 (amended): starting from a tree with pairwise distinct ids, any
sequence of `move` calls that satisfy the preconditions and never move the
root keeps the ids of the live tree pairwise distinct — every id present
appears exactly once.  (Without the non-root restriction the code breaks
this invariant, see the counterexample.) -/
theorem C6_unique_ids_nonroot (t : Employee) (ops : List Op)
    (hnd : t.ids.Nodup) (hok : movesOkNonRoot (AppState.init t) ops = true) :
    ((AppState.init t).run ops).current.ids.Nodup := by
  suffices h : ∀ (ops2 : List Op) (s : AppState), s.current.ids.Nodup →
      movesOkNonRoot s ops2 = true → (s.run ops2).current.ids.Nodup from
    h ops _ hnd hok
  intro ops2
  induction ops2 with
  | nil => intro s h _; exact h
  | cons op rest ih =>
    intro s h hok2
    cases op with
    | move e sv =>
      rw [run_cons]
      simp only [movesOkNonRoot, Bool.and_eq_true, bne_iff_ne,
        Bool.not_eq_eq_eq_not, Bool.not_true, beq_eq_false_iff_ne] at hok2
      obtain ⟨⟨⟨hfe, hfs⟩, hroot⟩, hrest⟩ := hok2
      refine ih _ ?_ hrest
      cases hm : s.move e sv with
      | ok s2 =>
        simp only [AppState.step, hm]
        exact move_nodup h hm hroot
      | error msg =>
        simp only [AppState.step, hm]
        exact h
    | undo => simp [movesOkNonRoot] at hok2
    | redo => simp [movesOkNonRoot] at hok2

/-- C6 witness for the amended claim: the valid non-root move `move(2,3)`. -/
theorem C6_witness :
    exTree.ids.Nodup ∧
    movesOkNonRoot (AppState.init exTree) [Op.move 2 3] = true ∧
    ((AppState.init exTree).run [Op.move 2 3]).current.ids.Nodup :=
  ⟨by decide, by decide,
    C6_unique_ids_nonroot exTree [Op.move 2 3] (by decide) (by decide)⟩

/-- C8: on a chart with pairwise distinct ids, `findEmployeeSupervisor` is
exactly the spec's pre-order depth-first search for the first node whose
immediate subordinates contain the id, and it returns `none` both for the
root's own id and for an id that does not occur in the tree. -/
theorem C8_findSupervisor_spec (t : Employee) (x : Int) (hnd : t.ids.Nodup) :
    findEmployeeSupervisor t x = supervisorBySpec t x ∧
    (x = t.uniqueId → findEmployeeSupervisor t x = none) ∧
    (x ∉ t.ids → findEmployeeSupervisor t x = none) := by
  refine ⟨?_, ?_, ?_⟩
  · cases hsup : findEmployeeSupervisor t x with
    | none =>
      have hnone := findEmployeeSupervisor_none_spec t x hsup
      symm
      unfold supervisorBySpec
      rw [List.find?_eq_none]
      intro nd hnd2
      simp only [List.any_eq_true, beq_iff_eq, not_exists]
      intro c
      exact fun hc => hnone nd hnd2 c hc.1 hc.2
    | some S =>
      obtain ⟨hmem, c, hc, hcx⟩ := findEmployeeSupervisor_some_spec t x S hsup
      symm
      unfold supervisorBySpec
      cases hf : t.nodes.find? (fun nd => nd.subordinates.any (fun c => c.uniqueId == x)) with
      | none =>
        rw [List.find?_eq_none] at hf
        exact absurd (by simp only [List.any_eq_true, beq_iff_eq]; exact ⟨c, hc, hcx⟩)
          (hf S hmem)
      | some S2 =>
        have hp := List.find?_some hf
        have hm2 := List.mem_of_find?_eq_some hf
        simp only [List.any_eq_true, beq_iff_eq] at hp
        obtain ⟨c2, hc2, hcx2⟩ := hp
        rw [supervisor_unique hnd hm2 hmem hc2 hc hcx2 hcx]
  · intro hx
    cases hsup : findEmployeeSupervisor t x with
    | none => rfl
    | some S =>
      obtain ⟨hmem, c, hc, hcx⟩ := findEmployeeSupervisor_some_spec t x S hsup
      exfalso
      have hcn : c ∈ t.nodes := mem_nodes_of_child t S c hmem hc
      have hct : c = t := by
        have hndmap : (t.nodes.map Employee.uniqueId).Nodup := by
          rw [← Employee.ids_eq_nodes_map]
          exact hnd
        exact List.inj_on_of_nodup_map hndmap hcn (Employee.self_mem_nodes t)
          (by rw [hcx, hx])
      subst hct
      have h1 := sizeOf_le_of_mem_nodes c S hmem
      have h2 : sizeOf c < sizeOf S := by
        cases S with
        | mk j m sub2 => exact sizeOf_lt_of_mem_subordinates (by simpa using hc)
      omega
  · intro hx
    cases hsup : findEmployeeSupervisor t x with
    | none => rfl
    | some S =>
      obtain ⟨hmem, c, hc, hcx⟩ := findEmployeeSupervisor_some_spec t x S hsup
      exact absurd (hcx ▸ uniqueId_mem_of_mem_nodes (mem_nodes_of_child t S c hmem hc)) hx

/-- C8 witness: the concrete chart, id 2. -/
theorem C8_witness :
    exTree.ids.Nodup ∧
    (findEmployeeSupervisor exTree 2 = supervisorBySpec exTree 2 ∧
     ((2 : Int) = exTree.uniqueId → findEmployeeSupervisor exTree 2 = none) ∧
     ((2 : Int) ∉ exTree.ids → findEmployeeSupervisor exTree 2 = none)) :=
  ⟨by decide, C8_findSupervisor_spec exTree 2 (by decide)⟩

theorem Employee.ids_eq (t : Employee) :
    t.ids = t.uniqueId :: Employee.idsList t.subordinates := by
  cases t with | mk i n subs => simp

theorem sizeOf_lt_of_child {c S : Employee} (h : c ∈ S.subordinates) :
    sizeOf c < sizeOf S := by
  cases S with
  | mk j m sub2 => exact sizeOf_lt_of_mem_subordinates (by simpa using h)

/-- C3: a successful `move(e, sv)` of employee E (a subordinate of S1) to a
supervisor S2 that is neither S1 nor inside E's subtree removes E from S1's
subordinates with the order of the remaining siblings preserved, appends E
as the last subordinate of S2, and leaves the subordinate sequence of every
other node unchanged (subordinate sequences observed by id). -/
theorem C3_move_correct (s s2 : AppState) (e sv : Int) (E S1 S2 : Employee)
    (hnd : s.current.ids.Nodup)
    (hE : findEmployee s.current e = some E)
    (hS1 : findEmployeeSupervisor s.current e = some S1)
    (hS2 : findEmployee s.current sv = some S2)
    (hne : sv ≠ S1.uniqueId)
    (hnotsub : sv ∉ E.ids)
    (hok : s.move e sv = Except.ok s2) :
    subsIds s2.current S1.uniqueId = some (S1.childIds.filter (fun y => y != e)) ∧
    subsIds s2.current sv = some (S2.childIds ++ [e]) ∧
    ∀ x ∈ s.current.ids, x ≠ S1.uniqueId → x ≠ sv →
      subsIds s2.current x = subsIds s.current x := by
  have hcur := move_sem hnd hE hok
  obtain ⟨hEid, hEnodes⟩ := findEmployee_some_spec _ _ _ hE
  obtain ⟨hS1mem, c, hcS1, hcid⟩ := findEmployeeSupervisor_some_spec _ _ _ hS1
  obtain ⟨hS2id, hS2mem⟩ := findEmployee_some_spec _ _ _ hS2
  have hES1 : E ∈ S1.subordinates := by
    have hcn : c ∈ s.current.nodes := mem_nodes_of_child _ S1 c hS1mem hcS1
    have hfc := find_of_mem_nodes _ c hnd hcn
    rw [hcid, hE] at hfc
    have hcE : E = c := by simpa using hfc
    rw [hcE]
    exact hcS1
  have heroot : e ≠ s.current.uniqueId := by
    intro hcontra
    have hft : findEmployee s.current e = some s.current :=
      findEmployee_self hcontra.symm
    rw [hE] at hft
    have hEt : E = s.current := by simpa using hft
    have h1 := sizeOf_le_of_mem_nodes s.current S1 hS1mem
    have h2 : sizeOf E < sizeOf S1 := sizeOf_lt_of_child hES1
    rw [hEt] at h2
    omega
  have hS1E : S1.uniqueId ∉ E.ids := by
    intro hmem
    have hsub : E.ids ⊆ Employee.idsList S1.subordinates :=
      (ids_sublist_of_mem_nodesList _ E (Employee.mem_nodesList_of_mem hES1)).subset
    have hndS1 := nodup_of_mem_nodes hnd hS1mem
    rw [Employee.ids_eq, List.nodup_cons] at hndS1
    exact hndS1.1 (hsub hmem)
  have hnd1 : (filterAll s.current e).ids.Nodup := nodup_filterAll hnd
  have hsvt : sv ∈ s.current.ids := by
    rw [← findEmployee_isSome_iff, hS2]; simp
  have hsv1 : sv ∈ (filterAll s.current e).ids :=
    filterAll_keeps _ e E sv hnd hE hsvt hnotsub
  have hchain : ∀ (x : Int) (N : Employee), findEmployee s.current x = some N →
      x ∉ E.ids →
      findEmployee s2.current x = some (appendAll (filterAll N e) sv E) := by
    intro x N hN hxE
    have hxt : x ∈ s.current.ids := by
      rw [← findEmployee_isSome_iff, hN]; simp
    have hx1 : x ∈ (filterAll s.current e).ids :=
      filterAll_keeps _ e E x hnd hE hxt hxE
    have h1 := findEmployee_filterAll s.current e x hnd hx1
    rw [hN, Option.map_some'] at h1
    have h2 := findEmployee_appendAll (filterAll s.current e) sv E x hnd1 hx1 hxE
    rw [h1, Option.map_some'] at h2
    rw [hcur]
    exact h2
  have hnoparent : ∀ (N : Employee), N ∈ s.current.nodes → N.uniqueId ≠ S1.uniqueId →
      N.childIds.filter (fun y => y != e) = N.childIds := by
    intro N hNmem hNne
    rw [List.filter_eq_self]
    intro a ha
    simp only [bne_iff_ne, ne_eq, decide_eq_true_eq]
    intro hae
    subst hae
    simp only [Employee.childIds, List.mem_map] at ha
    obtain ⟨c3, hc3, hc3id⟩ := ha
    exact hNne
      (congrArg Employee.uniqueId (supervisor_unique hnd hNmem hS1mem hc3 hES1 hc3id hEid))
  have hfS1 : findEmployee s.current S1.uniqueId = some S1 :=
    find_of_mem_nodes _ S1 hnd hS1mem
  have ht2S1 := hchain S1.uniqueId S1 hfS1 hS1E
  have hc1 : subsIds s2.current S1.uniqueId =
      some (S1.childIds.filter (fun y => y != e)) := by
    simp only [subsIds]
    rw [ht2S1, Option.map_some']
    congr 1
    rw [childIds_appendAll, filterAll_uniqueId, if_neg (fun h => hne h.symm),
      childIds_filterAll]
  have ht2sv := hchain sv S2 hS2 hnotsub
  have hfilterS2 : S2.childIds.filter (fun y => y != e) = S2.childIds :=
    hnoparent S2 hS2mem (by rw [hS2id]; exact hne)
  have hc2 : subsIds s2.current sv = some (S2.childIds ++ [e]) := by
    simp only [subsIds]
    rw [ht2sv, Option.map_some']
    congr 1
    rw [childIds_appendAll, filterAll_uniqueId, if_pos hS2id, childIds_filterAll,
      hfilterS2, hEid]
  refine ⟨hc1, hc2, ?_⟩
  intro x hx hxS1 hxsv
  by_cases hxE : x ∈ E.ids
  · have hsubt := findEmployee_subtree s.current e E x hnd hE hxE
    have hx1out : x ∉ (filterAll s.current e).ids :=
      filterAll_removes s.current e E hnd hE heroot x hxE
    have happ := findEmployee_appended (filterAll s.current e) sv E x hnd1 hsv1 hxE hx1out
    simp only [subsIds]
    rw [hcur, happ, hsubt]
  · obtain ⟨N, hN⟩ := findEmployee_isSome_of_mem hx
    have hNid := (findEmployee_some_spec _ _ _ hN).1
    have hNmem := (findEmployee_some_spec _ _ _ hN).2
    have ht2N := hchain x N hN hxE
    simp only [subsIds]
    rw [ht2N, hN, Option.map_some', Option.map_some']
    congr 1
    rw [childIds_appendAll, filterAll_uniqueId, if_neg (by rw [hNid]; exact hxsv),
      childIds_filterAll]
    exact hnoparent N hNmem (by rw [hNid]; exact hxS1)

/-- C3 witness: `move(2,3)` on the concrete chart, S1 the root, S2 = node 3. -/
theorem C3_witness :
    (AppState.init exTree).current.ids.Nodup ∧
    findEmployee (AppState.init exTree).current 2 = some (.mk 2 "A" []) ∧
    findEmployeeSupervisor (AppState.init exTree).current 2 = some exTree ∧
    findEmployee (AppState.init exTree).current 3 = some (.mk 3 "B" []) ∧
    (3 : Int) ≠ exTree.uniqueId ∧
    (3 : Int) ∉ (Employee.mk 2 "A" []).ids ∧
    (subsIds ((AppState.init exTree).step (Op.move 2 3)).current exTree.uniqueId =
        some (exTree.childIds.filter (fun y => y != 2)) ∧
      subsIds ((AppState.init exTree).step (Op.move 2 3)).current 3 =
        some ((Employee.mk 3 "B" []).childIds ++ [2]) ∧
      ∀ x ∈ (AppState.init exTree).current.ids, x ≠ exTree.uniqueId → x ≠ 3 →
        subsIds ((AppState.init exTree).step (Op.move 2 3)).current x =
          subsIds (AppState.init exTree).current x) :=
  ⟨by decide, by decide, by decide, by decide, by decide, by decide,
    C3_move_correct _ _ 2 3 (.mk 2 "A" []) exTree (.mk 3 "B" []) (by decide)
      (by decide) (by decide) (by decide) (by decide) (by decide) (by rfl)⟩
